import Mathlib

/-!
# Verification of the `aiger-rs` core against its specification

Shallow embedding of the AIG (And-Inverter Graph) core:

* `Ref` — signed node references packed into a `u32` (`src/reference.rs`);
* `Node`, `Aig` — the graph data model (`src/node.rs`, `src/aig.rs`);
* the layered topological sort driving evaluation and CNF encoding
  (`src/toposort.rs`; the `toposort_layers` entry point used by
  `Aig::layers_input` is absent from the sources and is modelled from the
  specification, §4.3);
* `Aig.eval` — circuit simulation (`src/aig.rs`);
* `Aig.to_cnf` — Tseitin CNF encoding with constant folding (`src/cnf.rs`).

Machine integers (`u32`) are modelled as `Nat` with explicit `% 2^32`
reduction exactly where the Rust code can wrap.  Hash maps are modelled as
association lists; code that panics is modelled with `Option`/`Except`
(`none`/`error` = panic).
-/

namespace AigerRs

/-! ## References (`src/reference.rs`)

`Ref(u32)` packs `(id << 1) + negated`.  `Ref::FALSE = Ref(0)`,
`Ref::TRUE = Ref(1)`. -/

structure Ref where
  raw : Nat
deriving DecidableEq

/-- `Ref::new(id, neg) = Ref((id << 1) + neg as u32)` on `u32`.
The left shift silently discards high bits (defined behaviour in Rust, no
panic), hence the `% 2^32`; the subsequent `+ neg` can never overflow
because the reduced shifted value is even. -/
def Ref.new (id : Nat) (negated : Bool) : Ref :=
  ⟨(2 * id) % 2 ^ 32 + (if negated then 1 else 0)⟩

def Ref.FALSE : Ref := ⟨0⟩

def Ref.TRUE : Ref := ⟨1⟩

def Ref.positive (id : Nat) : Ref := Ref.new id false

def Ref.negative (id : Nat) : Ref := Ref.new id true

/-- `Ref::id(self) = self.0 >> 1`. -/
def Ref.id (r : Ref) : Nat := r.raw / 2

/-- `Ref::is_negated(self) = self.0 & 1 != 0`. -/
def Ref.is_negated (r : Ref) : Bool := r.raw % 2 = 1

/-- `Ref::get(self)`: signed-integer view, `-id` when negated else `+id`.
(`id as i32` never overflows: `id = raw >> 1 < 2^31`.) -/
def Ref.get (r : Ref) : Int :=
  if r.is_negated then -(r.id : Int) else (r.id : Int)

/-- `Ref::is_const(self) = self.id() == 0`. -/
def Ref.is_const (r : Ref) : Bool := r.id = 0

/-- `Ref::is_false(self) = self.0 == 0`. -/
def Ref.is_false (r : Ref) : Bool := r.raw = 0

/-- `Ref::is_true(self) = self.0 == 1`. -/
def Ref.is_true (r : Ref) : Bool := r.raw = 1

/-- `Ref::get_const`. -/
def Ref.get_const (r : Ref) : Option Bool :=
  if r.is_false then some false
  else if r.is_true then some true
  else none

/-- `Neg for Ref`: `Ref(self.0 ^ 1)`. -/
def Ref.neg (r : Ref) : Ref := ⟨r.raw ^^^ 1⟩

theorem xor_one_div_two (n : Nat) : (n ^^^ 1) / 2 = n / 2 := by
  conv_lhs => rw [← Nat.bit_testBit_zero_shiftRight_one n]
  rw [show (1 : Nat) = Nat.bit true 0 from rfl, Nat.xor_bit, Nat.bit_div_two]
  simp [Nat.shiftRight_one]

theorem Ref.neg_neg (r : Ref) : r.neg.neg = r := by
  cases r with
  | mk raw => simp [Ref.neg, Nat.xor_cancel_right]

theorem Ref.id_neg (r : Ref) : r.neg.id = r.id := by
  cases r with
  | mk raw => simp [Ref.neg, Ref.id, xor_one_div_two]

/-- C4 (amended): for every id with `0 < id < 2^31` and both polarities,
`Ref::new(id, neg).id() = id` and `.is_negated() = neg`; for every
reference, double negation is the identity and negation never changes the
id; and both constants are distinct from every reference whose id is
non-zero.  (The bound `id < 2^31` is forced: for larger ids the `u32`
packing `(id << 1)` silently discards the high bit, see the
counterexample.) -/
theorem c4_reference_roundtrip :
    (∀ (id : Nat) (negated : Bool), 0 < id → id < 2 ^ 31 →
      (Ref.new id negated).id = id ∧ (Ref.new id negated).is_negated = negated) ∧
    (∀ r : Ref, r.neg.neg = r ∧ r.neg.id = r.id) ∧
    (∀ r : Ref, r.id ≠ 0 → r ≠ Ref.FALSE ∧ r ≠ Ref.TRUE) := by
  refine ⟨fun id negated h0 hlt => ?_, fun r => ⟨r.neg_neg, r.id_neg⟩, fun r hid => ?_⟩
  · have hmod : (2 * id) % 2 ^ 32 = 2 * id := Nat.mod_eq_of_lt (by omega)
    cases negated <;>
      simp [Ref.new, Ref.id, Ref.is_negated, hmod] <;> omega
  · have hraw : 2 ≤ r.raw := by
      by_contra h
      exact hid (by simp only [Ref.id]; omega)
    constructor
    · intro h
      rw [h] at hraw
      simp [Ref.FALSE] at hraw
    · intro h
      rw [h] at hraw
      simp [Ref.TRUE] at hraw

/-- C4, counterexample to the claim as stated: the claim quantifies over
*every* id `> 0`, but at `id = 2^31` the `u32` packing wraps and the
constructed reference *is* `Ref::FALSE`, so `id()` returns `0`, not the
original id. -/
theorem c4_counterexample :
    0 < 2 ^ 31 ∧ (Ref.new (2 ^ 31) false).id ≠ 2 ^ 31 ∧
      Ref.new (2 ^ 31) false = Ref.FALSE := by
  refine ⟨by norm_num, by decide, by decide⟩

/-- C4 witness: the amended round-trip at `id = 5`, `neg = true`, and the
other two parts at the concrete reference `~@7`. -/
theorem c4_reference_roundtrip_witness :
    ((Ref.new 5 true).id = 5 ∧ (Ref.new 5 true).is_negated = true) ∧
    ((Ref.negative 7).neg.neg = Ref.negative 7 ∧
      (Ref.negative 7).neg.id = (Ref.negative 7).id) ∧
    (Ref.negative 7 ≠ Ref.FALSE ∧ Ref.negative 7 ≠ Ref.TRUE) :=
  ⟨c4_reference_roundtrip.1 5 true (by decide) (by decide),
   c4_reference_roundtrip.2.1 (Ref.negative 7),
   c4_reference_roundtrip.2.2 (Ref.negative 7) (by decide)⟩

/-- C10: the signed-integer view conflates the two Boolean constants:
`Ref::FALSE.get() == 0` and `Ref::TRUE.get() == 0` although the two
references are distinct, so the polarity of constant-true is lost in that
view; for every non-constant reference the view is `-id` when negated and
`+id` otherwise. -/
theorem c10_signed_view_conflates_constants :
    Ref.FALSE.get = 0 ∧ Ref.TRUE.get = 0 ∧ Ref.FALSE ≠ Ref.TRUE ∧
    (∀ r : Ref, r.is_const = false →
      r.get = if r.is_negated then -(r.id : Int) else (r.id : Int)) :=
  ⟨by decide, by decide, by decide, fun r _ => rfl⟩

/-- C10 witness: the non-constant clause of the theorem applied at the
concrete reference `~@2`, whose signed view evaluates to `-2`. -/
theorem c10_signed_view_witness : (Ref.negative 2).get = -2 :=
  (c10_signed_view_conflates_constants.2.2.2 (Ref.negative 2) (by decide)).trans
    (by decide)

/-! ## Nodes (`src/node.rs`) -/

inductive Node where
  | zero : Node
  | input (id : Nat) : Node
  | latch (id : Nat) (next : Ref) : Node
  | and_gate (id : Nat) (arg0 arg1 : Ref) : Node
deriving DecidableEq

/-- `Node::children`: note that in this revision a latch has *no*
combinational children (`Node::Latch(_) => &[]`). -/
def Node.children : Node → List Ref
  | .zero => []
  | .input _ => []
  | .latch _ _ => []
  | .and_gate _ a b => [a, b]

/-- The ids of a node's children (`node.children().iter().map(|c| c.id())`). -/
def Node.childIds (n : Node) : List Nat := n.children.map Ref.id

/-- Whether a stored node is an AND gate. -/
def Node.isGate : Node → Bool
  | .and_gate _ _ _ => true
  | _ => false

/-! ## Graph storage (`src/aig.rs`)

`Aig { nodes: HashMap<u32, Node>, inputs: Vec<u32>, outputs: Vec<Ref> }`.
The node map is modelled as an association list (the map's contents; any
hash-iteration order that matters downstream is treated explicitly, see
`toposort_layersFrom`).

The `latches` field is *modelled from the spec*: `Aig::to_cnf` calls a
`self.latches()` accessor that does not appear in the sources; per §3 the
graph owns "an ordered sequence of latch ids", which this field stores and
the accessor returns. -/

structure Aig where
  nodes : List (Nat × Node)
  inputs : List Nat
  latches : List Nat
  outputs : List Ref
deriving DecidableEq

/-- `Aig::node(id)`: id 0 yields the synthesized `Zero` node; otherwise the
stored node (`self.nodes[&id]` panics when absent, modelled by `none`). -/
def Aig.node (A : Aig) (id : Nat) : Option Node :=
  if id = 0 then some Node.zero else A.nodes.lookup id

/-- Ids of all stored AND gates. -/
def Aig.gateIds (A : Aig) : List Nat :=
  (A.nodes.filter (fun p => p.2.isGate)).map Prod.fst

/-- Well-formedness maintained by the builder operations (`add_input`,
`add_and_gate` assert `!self.contains(id)`, which also rules out id 0, and
`add_input` keeps `inputs` duplicate-free and in sync with the stored
`Input` nodes). -/
def WF (A : Aig) : Prop :=
  (A.nodes.map Prod.fst).Nodup ∧
  A.inputs.Nodup ∧
  (∀ id ∈ A.inputs, A.nodes.lookup id = some (Node.input id)) ∧
  0 ∉ A.nodes.map Prod.fst

instance (A : Aig) : Decidable (WF A) := by
  unfold WF
  infer_instance

/-! ## The reverse dependency graph (`Aig::reverse_dependency_graph`)

`for (&id, node) in self.nodes() { for c in node.children() {
result.entry(c.id()).or_default().insert(id); } }` — a map from each child
id to the set of nodes depending on it.  The hash map/set contents are
canonical (a mathematical map of sets); we represent each dependent set as
the list of stored node ids that reference the key. -/

def Aig.dependentsOf (A : Aig) (x : Nat) : List Nat :=
  (A.nodes.filter (fun p => decide (x ∈ p.2.childIds))).map Prod.fst

/-- The keys of the reverse dependency graph: ids occurring as a child of
some stored node. -/
def Aig.revKeys (A : Aig) : List Nat :=
  (A.nodes.flatMap (fun p => p.2.childIds)).dedup

def Aig.revDepGraph (A : Aig) : List (Nat × List Nat) :=
  A.revKeys.map (fun x => (x, A.dependentsOf x))

/-! ## Layered topological sort

`Aig::layers_input`/`layers_output` call `toposort_layers(&graph)`, which
is not present in `src/toposort.rs` (the file only defines
`ForwardTopoSort`/`BackwardTopoSort`).  It is modelled below from the
spec, §4.3. -/

/-- Successors of `p` in a graph given as an association list
(`graph[p]`, empty when absent). -/
def succsOf (G : List (Nat × List Nat)) (p : Nat) : List Nat :=
  (G.lookup p).getD []

/-- All ids occurring in the graph (as a key or inside a value). -/
def vertsOf (G : List (Nat × List Nat)) : List Nat :=
  (G.map Prod.fst ++ G.flatMap Prod.snd).dedup

/-- `x` has no remaining predecessor among `alive` (its in-degree counting
only unprocessed nodes is zero). -/
def isFree (G : List (Nat × List Nat)) (alive : List Nat) (x : Nat) : Bool :=
  alive.all (fun p => !decide (x ∈ succsOf G p))

/-- Modelled from the spec: the Kahn-style peeling of §4.3 underlying the
missing `toposort_layers` — "maintain a dependency count per node, seed the
frontier with zero-count nodes, repeatedly emit the frontier as a layer and
decrement counts of neighbors, re-seeding the next frontier with
newly-zeroed nodes"; an empty frontier with nodes remaining means a cycle
and is a fatal error (`none`).  Each emitted layer is the set of remaining
nodes with no remaining predecessor, which is exactly the set the in-src
`ForwardTopoSort` queue holds at the corresponding round.  `fuel` bounds
the rounds; `ord.length` rounds always suffice since every non-final round
retires at least one node. -/
def peel : Nat → List (Nat × List Nat) → List Nat → Option (List (List Nat))
  | _, _, [] => some []
  | 0, _, _ :: _ => none
  | fuel + 1, G, x :: rest =>
    let f := (x :: rest).filter (isFree G (x :: rest))
    if f.isEmpty then none
    else
      (peel fuel G ((x :: rest).filter (fun y => !isFree G (x :: rest) y))).map
        (f :: ·)

/-- The peeling started from an explicit enumeration `ord` of the graph's
nodes; `ord` models the (arbitrary) hash-map iteration order seeding the
computation. -/
def toposort_layersFrom (G : List (Nat × List Nat)) (ord : List Nat) :
    Option (List (List Nat)) :=
  peel ord.length G ord

/-- Modelled from the spec: `toposort_layers` (absent from
`src/toposort.rs`) consumed by `Aig::layers_input`/`layers_output`,
instantiated at the canonical node enumeration. -/
def toposort_layers (G : List (Nat × List Nat)) : Option (List (List Nat)) :=
  toposort_layersFrom G (vertsOf G)

/-- The per-layer `xs.sort()` performed by `Aig::layers_input`. -/
def sortLayer (l : List Nat) : List Nat := List.insertionSort (· ≤ ·) l

/-- `Aig::layers_input` seeded by an explicit node enumeration. -/
def Aig.layersInputFrom (A : Aig) (ord : List Nat) :
    Option (List (List Nat)) :=
  (toposort_layersFrom A.revDepGraph ord).map (List.map sortLayer)

/-- `Aig::layers_input`: reverse dependency graph, layered toposort, each
layer sorted; the whole sequence is computed eagerly
(`.collect::<Vec<_>>()`), so a cycle panic happens before any layer is
observable. -/
def Aig.layers_input (A : Aig) : Option (List (List Nat)) :=
  A.layersInputFrom (vertsOf A.revDepGraph)

theorem peel_nil (fuel : Nat) (G : List (Nat × List Nat)) :
    peel fuel G [] = some [] := by
  cases fuel <;> rfl

/-- Destructor for a successful peeling round on a non-empty frontier. -/
theorem peel_cons_elim {fuel : Nat} {G : List (Nat × List Nat)}
    {x : Nat} {rest : List Nat} {Ls : List (List Nat)}
    (h : peel (fuel + 1) G (x :: rest) = some Ls) :
    ∃ Ls', Ls = (x :: rest).filter (isFree G (x :: rest)) :: Ls' ∧
      peel fuel G ((x :: rest).filter (fun y => !isFree G (x :: rest) y)) =
        some Ls' ∧
      ((x :: rest).filter (isFree G (x :: rest))).isEmpty = false := by
  rw [peel] at h
  by_cases hf : ((x :: rest).filter (isFree G (x :: rest))).isEmpty
  · rw [if_pos hf] at h
    cases h
  · rw [if_neg hf] at h
    cases hrec : peel fuel G ((x :: rest).filter (fun y => !isFree G (x :: rest) y)) with
    | none => rw [hrec] at h; cases h
    | some Ls' =>
      rw [hrec] at h
      cases h
      exact ⟨Ls', rfl, rfl, Bool.eq_false_iff.mpr hf⟩

/-- The concatenation of the layers returned by a successful peeling is a
permutation of the starting node list. -/
theorem peel_flatten_perm :
    ∀ (fuel : Nat) (G : List (Nat × List Nat)) (alive : List Nat)
      (Ls : List (List Nat)),
      peel fuel G alive = some Ls → Ls.flatten.Perm alive := by
  intro fuel
  induction fuel with
  | zero =>
    intro G alive Ls h
    match alive with
    | [] => rw [peel_nil] at h; cases h; simp
    | _ :: _ => exact absurd h (by rw [peel]; simp)
  | succ fuel ih =>
    intro G alive Ls h
    match alive with
    | [] => rw [peel_nil] at h; cases h; simp
    | x :: rest =>
      obtain ⟨Ls', rfl, hrec, -⟩ := peel_cons_elim h
      have hperm := ih G _ Ls' hrec
      have hflat : ((x :: rest).filter (isFree G (x :: rest)) :: Ls').flatten =
          (x :: rest).filter (isFree G (x :: rest)) ++ Ls'.flatten := by simp
      rw [hflat]
      exact (List.Perm.append_left _ hperm).trans (List.filter_append_perm _ _)

/-- Every predecessor (in `G`) of a node emitted in layer `k` that was
alive at the start is emitted in a strictly earlier layer. -/
theorem peel_earlier_deps :
    ∀ (fuel : Nat) (G : List (Nat × List Nat)) (alive : List Nat)
      (Ls : List (List Nat)),
      peel fuel G alive = some Ls →
      ∀ (k : Nat) (x : Nat), x ∈ Ls.getD k [] →
        ∀ p ∈ alive, x ∈ succsOf G p → ∃ j, j < k ∧ p ∈ Ls.getD j [] := by
  intro fuel
  induction fuel with
  | zero =>
    intro G alive Ls h k x hx p hp hedge
    match alive with
    | [] => rw [peel_nil] at h; cases h; simp at hx
    | _ :: _ => exact absurd h (by rw [peel]; simp)
  | succ fuel ih =>
    intro G alive Ls h k x hx p hp hedge
    match alive with
    | [] => rw [peel_nil] at h; cases h; simp at hx
    | a :: rest =>
      obtain ⟨Ls', rfl, hrec, -⟩ := peel_cons_elim h
      match k with
      | 0 =>
        simp only [List.getD_cons_zero] at hx
        rw [List.mem_filter] at hx
        have := (List.all_eq_true.mp hx.2) p hp
        simp [hedge] at this
      | k + 1 =>
        simp only [List.getD_cons_succ] at hx
        by_cases hfree : isFree G (a :: rest) p
        · refine ⟨0, Nat.succ_pos _, ?_⟩
          simp only [List.getD_cons_zero]
          exact List.mem_filter.mpr ⟨hp, hfree⟩
        · have hp' : p ∈ (a :: rest).filter (fun y => !isFree G (a :: rest) y) :=
            List.mem_filter.mpr ⟨hp, by simp [hfree]⟩
          obtain ⟨j, hj, hpj⟩ := ih G _ Ls' hrec k x hx p hp' hedge
          exact ⟨j + 1, by omega, by simpa using hpj⟩

/-! ## Association list helpers -/

theorem lookup_mem {α : Type} [DecidableEq α] {β : Type} :
    ∀ {l : List (α × β)} {k : α} {v : β}, l.lookup k = some v → (k, v) ∈ l := by
  intro l
  induction l with
  | nil => intro k v h; cases h
  | cons p rest ih =>
    intro k v h
    obtain ⟨a, b⟩ := p
    by_cases hk : k = a
    · subst hk
      simp [List.lookup] at h
      simp [h]
    · simp only [List.lookup, beq_eq_false_iff_ne.mpr hk] at h
      exact List.mem_cons_of_mem _ (ih h)

theorem lookup_eq_some_of_mem_nodup {α : Type} [DecidableEq α] {β : Type} :
    ∀ {l : List (α × β)} {k : α} {v : β},
      (l.map Prod.fst).Nodup → (k, v) ∈ l → l.lookup k = some v := by
  intro l
  induction l with
  | nil => intro k v _ h; cases h
  | cons p rest ih =>
    intro k v hnd hmem
    obtain ⟨a, b⟩ := p
    rw [List.map_cons, List.nodup_cons] at hnd
    rcases List.mem_cons.mp hmem with heq | hmem'
    · cases heq
      simp [List.lookup]
    · have hka : k ≠ a := by
        rintro rfl
        exact hnd.1 (List.mem_map.mpr ⟨(k, v), hmem', rfl⟩)
      simp only [List.lookup, beq_eq_false_iff_ne.mpr hka]
      exact ih hnd.2 hmem'

theorem lookup_map_self {α : Type} [DecidableEq α] {β : Type} (f : α → β) :
    ∀ (l : List α) (x : α), x ∈ l →
      (l.map (fun y => (y, f y))).lookup x = some (f x) := by
  intro l
  induction l with
  | nil => intro x h; cases h
  | cons a rest ih =>
    intro x hx
    by_cases hxa : x = a
    · subst hxa
      simp [List.lookup]
    · rw [List.map_cons]
      simp only [List.lookup, beq_eq_false_iff_ne.mpr hxa]
      exact ih x (by rcases List.mem_cons.mp hx with h | h; exact absurd h hxa; exact h)

theorem lookup_map_self_not_mem {α : Type} [DecidableEq α] {β : Type} (f : α → β) :
    ∀ (l : List α) (x : α), x ∉ l →
      (l.map (fun y => (y, f y))).lookup x = none := by
  intro l
  induction l with
  | nil => intro x _; rfl
  | cons a rest ih =>
    intro x hx
    have hxa : x ≠ a := by rintro rfl; exact hx (List.mem_cons_self _ _)
    rw [List.map_cons]
    simp only [List.lookup, beq_eq_false_iff_ne.mpr hxa]
    exact ih x (fun h => hx (List.mem_cons_of_mem _ h))

/-! ## Structure of the reverse dependency graph -/

theorem map_fst_revDepGraph (A : Aig) :
    A.revDepGraph.map Prod.fst = A.revKeys := by
  rw [Aig.revDepGraph, List.map_map]
  exact List.map_id' _

theorem succsOf_revDepGraph_mem (A : Aig) (p : Nat) (hp : p ∈ A.revKeys) :
    succsOf A.revDepGraph p = A.dependentsOf p := by
  rw [succsOf, Aig.revDepGraph, lookup_map_self _ _ _ hp, Option.getD_some]

theorem succsOf_revDepGraph_not_mem (A : Aig) (p : Nat) (hp : p ∉ A.revKeys) :
    succsOf A.revDepGraph p = [] := by
  rw [succsOf, Aig.revDepGraph, lookup_map_self_not_mem _ _ _ hp, Option.getD_none]

theorem mem_revKeys_iff (A : Aig) (p : Nat) :
    p ∈ A.revKeys ↔ ∃ q ∈ A.nodes, p ∈ q.2.childIds := by
  rw [Aig.revKeys, List.mem_dedup, List.mem_flatMap]

/-- The edge relation of the reverse dependency graph: `p → x` iff some
stored entry `(x, n)` has `p` among its child ids. -/
theorem mem_succsOf_revDepGraph (A : Aig) (p x : Nat) :
    x ∈ succsOf A.revDepGraph p ↔ ∃ n, (x, n) ∈ A.nodes ∧ p ∈ n.childIds := by
  constructor
  · intro h
    by_cases hp : p ∈ A.revKeys
    · rw [succsOf_revDepGraph_mem A p hp, Aig.dependentsOf] at h
      obtain ⟨⟨x', n⟩, hmem, rfl⟩ := List.mem_map.mp h
      have := List.mem_filter.mp hmem
      exact ⟨n, this.1, by simpa using this.2⟩
    · rw [succsOf_revDepGraph_not_mem A p hp] at h
      cases h
  · rintro ⟨n, hmem, hchild⟩
    have hp : p ∈ A.revKeys := (mem_revKeys_iff A p).mpr ⟨(x, n), hmem, hchild⟩
    rw [succsOf_revDepGraph_mem A p hp, Aig.dependentsOf]
    exact List.mem_map.mpr ⟨(x, n), List.mem_filter.mpr ⟨hmem, by simpa using hchild⟩, rfl⟩

theorem revKeys_subset_verts (A : Aig) {p : Nat} (hp : p ∈ A.revKeys) :
    p ∈ vertsOf A.revDepGraph := by
  rw [vertsOf, List.mem_dedup, List.mem_append]
  exact Or.inl (by rw [map_fst_revDepGraph]; exact hp)

theorem mem_verts_of_dependent (A : Aig) {x : Nat} {n : Node}
    (hmem : (x, n) ∈ A.nodes) {p : Nat} (hchild : p ∈ n.childIds) :
    x ∈ vertsOf A.revDepGraph := by
  rw [vertsOf, List.mem_dedup, List.mem_append]
  refine Or.inr (List.mem_flatMap.mpr ?_)
  have hp : p ∈ A.revKeys := (mem_revKeys_iff A p).mpr ⟨(x, n), hmem, hchild⟩
  refine ⟨(p, A.dependentsOf p), ?_, ?_⟩
  · rw [Aig.revDepGraph]
    exact List.mem_map.mpr ⟨p, hp, rfl⟩
  · rw [Aig.dependentsOf]
    exact List.mem_map.mpr ⟨(x, n), List.mem_filter.mpr ⟨hmem, by simpa using hchild⟩, rfl⟩

theorem childIds_ne_nil_iff_isGate (n : Node) :
    n.childIds ≠ [] ↔ n.isGate = true := by
  cases n <;> simp [Node.childIds, Node.children, Node.isGate]

/-- Under well-formedness, a node of the reverse dependency graph has a
remaining predecessor among all graph nodes exactly when it is a stored
AND gate (the only node kind with combinational children in this
revision — latches store no children). -/
theorem not_isFree_verts_iff (A : Aig) (hWF : WF A) (x : Nat) :
    isFree A.revDepGraph (vertsOf A.revDepGraph) x = false ↔
      ∃ n, A.nodes.lookup x = some n ∧ n.isGate = true := by
  have hfree : isFree A.revDepGraph (vertsOf A.revDepGraph) x = false ↔
      ∃ p ∈ vertsOf A.revDepGraph, x ∈ succsOf A.revDepGraph p := by
    rw [isFree]
    simp [List.all_eq_false]
  rw [hfree]
  constructor
  · rintro ⟨p, hp, hedge⟩
    obtain ⟨n, hmem, hchild⟩ := (mem_succsOf_revDepGraph A p x).mp hedge
    exact ⟨n, lookup_eq_some_of_mem_nodup hWF.1 hmem,
      (childIds_ne_nil_iff_isGate n).mp (List.ne_nil_of_mem hchild)⟩
  · rintro ⟨n, hlk, hgate⟩
    have hmem := lookup_mem hlk
    obtain ⟨c, hc⟩ :=
      List.exists_mem_of_ne_nil _ ((childIds_ne_nil_iff_isGate n).mpr hgate)
    exact ⟨c, revKeys_subset_verts A ((mem_revKeys_iff A c).mpr ⟨(x, n), hmem, hc⟩),
      (mem_succsOf_revDepGraph A c x).mpr ⟨n, hmem, hc⟩⟩

theorem gateIds_nodup (A : Aig) (hWF : WF A) : A.gateIds.Nodup := by
  rw [Aig.gateIds]
  exact ((List.filter_sublist _).map Prod.fst).nodup hWF.1

theorem mem_gateIds_iff (A : Aig) (hWF : WF A) (g : Nat) :
    g ∈ A.gateIds ↔ ∃ n, A.nodes.lookup g = some n ∧ n.isGate = true := by
  rw [Aig.gateIds]
  constructor
  · intro h
    obtain ⟨⟨g', n⟩, hmem, rfl⟩ := List.mem_map.mp h
    have := List.mem_filter.mp hmem
    exact ⟨n, lookup_eq_some_of_mem_nodup hWF.1 this.1, this.2⟩
  · rintro ⟨n, hlk, hgate⟩
    exact List.mem_map.mpr ⟨(g, n), List.mem_filter.mpr ⟨lookup_mem hlk, hgate⟩, rfl⟩

/-- Every stored AND gate occurs among the graph's layered nodes. -/
theorem gate_mem_verts (A : Aig) (_hWF : WF A) {g : Nat} {n : Node}
    (hlk : A.nodes.lookup g = some n) (hgate : n.isGate = true) :
    g ∈ vertsOf A.revDepGraph := by
  obtain ⟨c, hc⟩ : ∃ c, c ∈ n.childIds := by
    rcases List.exists_mem_of_ne_nil _ ((childIds_ne_nil_iff_isGate n).mpr hgate) with ⟨c, hc⟩
    exact ⟨c, hc⟩
  exact mem_verts_of_dependent A (lookup_mem hlk) hc

/-! ## Map insertion (`HashMap::insert` / `BTreeMap::insert`)

Overwrite-on-collision insertion on an association list; the list length
models the map's `len()` (it grows by one exactly when the key is new). -/

def mapInsert {β : Type} (m : List (Nat × β)) (k : Nat) (v : β) :
    List (Nat × β) :=
  if m.any (fun p => p.1 == k) then
    m.map (fun p => if p.1 == k then (k, v) else p)
  else m ++ [(k, v)]

/-! ## Evaluation (`Aig::eval`, `src/aig.rs`) -/

/-- The inner `get_value` helper of `Aig::eval`: constants resolve
directly, otherwise `values[&r.id()] ^ r.is_negated()` (panicking lookup
modelled by `Option`). -/
def get_value (r : Ref) (values : List (Nat × Bool)) : Option Bool :=
  if r.is_false then some false
  else if r.is_true then some true
  else (values.lookup r.id).map (fun b => xor b r.is_negated)

/-- One node of a non-initial layer during `Aig::eval`: anything but an
AND gate (or a missing node) is a fatal error; a gate computes the
conjunction of its resolved arguments. -/
def evalGate (A : Aig) (values : List (Nat × Bool)) (id : Nat) :
    Option (List (Nat × Bool)) :=
  match A.node id with
  | some (Node.and_gate _ left right) =>
    (get_value left values).bind (fun lv =>
      (get_value right values).map (fun rv => mapInsert values id (lv && rv)))
  | _ => none

/-- `Aig::eval`: asserts the input-vector length, seeds the value map from
the inputs positionally, then walks the inputs-first layers, skipping
layer 0. -/
def Aig.eval (A : Aig) (input_values : List Bool) :
    Option (List (Nat × Bool)) :=
  if input_values.length = A.inputs.length then
    match A.layers_input with
    | none => none
    | some layers =>
      (layers.drop 1).foldlM (fun values layer => layer.foldlM (evalGate A) values)
        ((A.inputs.zip input_values).foldl (fun m p => mapInsert m p.1 p.2) [])
  else none

/-! ## CNF encoding (`Aig::to_cnf`, `src/cnf.rs`) -/

/-- `ref2lit`: the signed DIMACS literal of a reference under the current
id-to-variable map (`mapping[&r.id()]` panics when absent). -/
def ref2lit (r : Ref) (mapping : List (Nat × Nat)) : Option Int :=
  (mapping.lookup r.id).map (fun v =>
    if r.is_negated then -(v : Int) else (v : Int))

/-- The clause set emitted for one AND gate with fresh variable `x` and
arguments `left`, `right`, exactly following the `match (left.get_const(),
right.get_const())` of `to_cnf` (note that in the one-constant branches
`ref2lit` is evaluated before the constant's value is inspected, exactly
as in the source). -/
def encodeGate (x : Int) (left right : Ref) (mapping : List (Nat × Nat)) :
    Option (List (List Int)) :=
  match left.get_const, right.get_const with
  | some l, some r => some (if l && r then [[x]] else [[-x]])
  | some l, none =>
    (ref2lit right mapping).map (fun rhs =>
      if l then [[x, -rhs], [-x, rhs]] else [[-x]])
  | none, some r =>
    (ref2lit left mapping).map (fun lhs =>
      if r then [[x, -lhs], [-x, lhs]] else [[-x]])
  | none, none =>
    (ref2lit left mapping).bind (fun lhs =>
      (ref2lit right mapping).map (fun rhs =>
        [[x, -lhs, -rhs], [-x, lhs], [-x, rhs]]))

/-- One node of a non-initial layer during `to_cnf`: anything but an AND
gate is a fatal error; a gate is assigned the fresh variable
`mapping.len() + 1` (inserted before the clauses are built, as in the
source) and contributes its `encodeGate` clauses. -/
def cnfGateStep (A : Aig) (st : List (List Int) × List (Nat × Nat))
    (id : Nat) : Option (List (List Int) × List (Nat × Nat)) :=
  match A.node id with
  | some (Node.and_gate _ left right) =>
    (encodeGate ((st.2.length + 1 : Nat) : Int) left right
        (mapInsert st.2 id (st.2.length + 1))).map
      (fun cls => (st.1 ++ cls, mapInsert st.2 id (st.2.length + 1)))
  | _ => none

/-- Modelled from the spec: the `Aig::latches()` accessor called by
`to_cnf` is absent from the sources (the in-src `Aig` struct carries no
latch list); per §3/§4.2 the graph owns an ordered sequence of latch ids
which this accessor returns. -/
def Aig.latchList (A : Aig) : List Nat := A.latches

/-- `Aig::to_cnf`: rejects latches, maps inputs to variables `1..=N` in
declared order, then processes the inputs-first layers (skipping layer 0)
via `cnfGateStep`. -/
def Aig.to_cnf (A : Aig) : Option (List (List Int) × List (Nat × Nat)) :=
  if A.latchList.isEmpty then
    match A.layers_input with
    | none => none
    | some layers =>
      (layers.drop 1).foldlM (fun st layer => layer.foldlM (cnfGateStep A) st)
        ([], A.inputs.enum.foldl (fun m p => mapInsert m p.2 (p.1 + 1)) [])
  else none

/-- C5: a graph containing at least one latch is fatally rejected by
`to_cnf` — no clauses and no variable map are produced (the check is the
first statement of `to_cnf`, before any encoding work). -/
theorem c5_latches_rejected (A : Aig) (h : A.latchList ≠ []) :
    A.to_cnf = none := by
  rw [Aig.to_cnf, if_neg]
  simp only [List.isEmpty_iff]
  exact h

/-- C5 witness: a concrete one-latch graph is rejected. -/
theorem c5_latches_rejected_witness :
    (Aig.mk [(1, Node.latch 1 Ref.FALSE)] [] [1] []).latchList ≠ [] ∧
      (Aig.mk [(1, Node.latch 1 Ref.FALSE)] [] [1] []).to_cnf = none :=
  ⟨by decide, c5_latches_rejected _ (by decide)⟩

/-! ## The concrete evaluation example (spec §8, claim C7) -/

/-- Inputs `x1 = 1, x2 = 2, x3 = 3`; gates `g1 = 4 = x1 AND x2`,
`g2 = 5 = (NOT g1) AND x3`, `g3 = 6 = x1 AND (NOT g2)`; output `g3`. -/
def evalExample : Aig :=
  { nodes := [(1, Node.input 1), (2, Node.input 2), (3, Node.input 3),
              (4, Node.and_gate 4 (Ref.positive 1) (Ref.positive 2)),
              (5, Node.and_gate 5 (Ref.negative 4) (Ref.positive 3)),
              (6, Node.and_gate 6 (Ref.positive 1) (Ref.negative 5))],
    inputs := [1, 2, 3],
    latches := [],
    outputs := [Ref.positive 6] }

/-- C7: on inputs `[true, false, true]` the example circuit evaluates to
`g1 = false`, `g2 = true`, `g3 = false`; applying the output reference's
negation bit to the entry of `g3` yields the output value `false`; and
each gate's entry equals `(value(arg0) xor negated(arg0)) AND
(value(arg1) xor negated(arg1))`. -/
theorem c7_evaluation_example :
    ((evalExample.eval [true, false, true]).bind (fun m => m.lookup 4)
        = some false) ∧
    ((evalExample.eval [true, false, true]).bind (fun m => m.lookup 5)
        = some true) ∧
    ((evalExample.eval [true, false, true]).bind (fun m => m.lookup 6)
        = some false) ∧
    ((evalExample.eval [true, false, true]).bind (fun m =>
        (m.lookup (Ref.positive 6).id).map
          (fun b => xor b (Ref.positive 6).is_negated)) = some false) ∧
    ((evalExample.eval [true, false, true]).bind (fun m =>
        (m.lookup 1).bind (fun a => (m.lookup 2).map (fun b =>
          (xor a false && xor b false)))) =
      (evalExample.eval [true, false, true]).bind (fun m => m.lookup 4)) ∧
    ((evalExample.eval [true, false, true]).bind (fun m =>
        (m.lookup 4).bind (fun a => (m.lookup 3).map (fun b =>
          (xor a true && xor b false)))) =
      (evalExample.eval [true, false, true]).bind (fun m => m.lookup 5)) ∧
    ((evalExample.eval [true, false, true]).bind (fun m =>
        (m.lookup 1).bind (fun a => (m.lookup 5).map (fun b =>
          (xor a false && xor b true)))) =
      (evalExample.eval [true, false, true]).bind (fun m => m.lookup 6)) := by
  decide

/-! ## Claim C1: per-gate clause emission of `to_cnf` -/

/-- C1: for an AND gate processed by `to_cnf` with fresh variable
`x = mapping.len() + 1`: both arguments constant and both true emits
exactly `[x]`; both constant but not both true emits exactly `[-x]`;
exactly one constant argument that is true, the other resolving to literal
`l`, emits exactly `[x, -l]` and `[-x, l]`; exactly one constant argument
that is false emits exactly `[-x]`; no constant arguments, literals `l1`,
`l2`, emits exactly `[x, -l1, -l2]`, `[-x, l1]`, `[-x, l2]`.  (In the
one-constant branches the source resolves the other argument before
inspecting the constant, so resolvability is hypothesised there too.) -/
theorem c1_gate_clause_emission (A : Aig) (id gid : Nat) (left right : Ref)
    (cls : List (List Int)) (m : List (Nat × Nat))
    (hnode : A.node id = some (Node.and_gate gid left right)) :
    (∀ a b, left.get_const = some a → right.get_const = some b →
      cnfGateStep A (cls, m) id = some
        (cls ++ (if a && b then [[((m.length + 1 : Nat) : Int)]]
          else [[-((m.length + 1 : Nat) : Int)]]),
         mapInsert m id (m.length + 1))) ∧
    (∀ l, left.get_const = some true → right.get_const = none →
      ref2lit right (mapInsert m id (m.length + 1)) = some l →
      cnfGateStep A (cls, m) id = some
        (cls ++ [[((m.length + 1 : Nat) : Int), -l],
                 [-((m.length + 1 : Nat) : Int), l]],
         mapInsert m id (m.length + 1))) ∧
    (∀ l, left.get_const = none → right.get_const = some true →
      ref2lit left (mapInsert m id (m.length + 1)) = some l →
      cnfGateStep A (cls, m) id = some
        (cls ++ [[((m.length + 1 : Nat) : Int), -l],
                 [-((m.length + 1 : Nat) : Int), l]],
         mapInsert m id (m.length + 1))) ∧
    (∀ l, ((left.get_const = some false ∧ right.get_const = none ∧
            ref2lit right (mapInsert m id (m.length + 1)) = some l) ∨
           (left.get_const = none ∧ right.get_const = some false ∧
            ref2lit left (mapInsert m id (m.length + 1)) = some l)) →
      cnfGateStep A (cls, m) id = some
        (cls ++ [[-((m.length + 1 : Nat) : Int)]],
         mapInsert m id (m.length + 1))) ∧
    (∀ l1 l2, left.get_const = none → right.get_const = none →
      ref2lit left (mapInsert m id (m.length + 1)) = some l1 →
      ref2lit right (mapInsert m id (m.length + 1)) = some l2 →
      cnfGateStep A (cls, m) id = some
        (cls ++ [[((m.length + 1 : Nat) : Int), -l1, -l2],
                 [-((m.length + 1 : Nat) : Int), l1],
                 [-((m.length + 1 : Nat) : Int), l2]],
         mapInsert m id (m.length + 1))) := by
  refine ⟨?_, ?_, ?_, ?_, ?_⟩
  · intro a b hl hr
    simp [cnfGateStep, hnode, encodeGate, hl, hr]
  · intro l hl hr hlit
    simp [cnfGateStep, hnode, encodeGate, hl, hr, hlit]
  · intro l hl hr hlit
    simp [cnfGateStep, hnode, encodeGate, hl, hr, hlit]
  · rintro l (⟨hl, hr, hlit⟩ | ⟨hl, hr, hlit⟩) <;>
      simp [cnfGateStep, hnode, encodeGate, hl, hr, hlit]
  · intro l1 l2 hl hr hlit1 hlit2
    simp [cnfGateStep, hnode, encodeGate, hl, hr, hlit1, hlit2]

/-- A small graph exercising every constant-folding branch of the CNF
gate encoding. -/
def cnfBranchExample : Aig :=
  { nodes := [(1, Node.input 1), (2, Node.input 2),
              (10, Node.and_gate 10 Ref.TRUE Ref.TRUE),
              (11, Node.and_gate 11 Ref.TRUE (Ref.positive 1)),
              (12, Node.and_gate 12 (Ref.positive 1) Ref.FALSE),
              (13, Node.and_gate 13 (Ref.positive 1) (Ref.positive 2)),
              (14, Node.and_gate 14 Ref.FALSE (Ref.positive 1))],
    inputs := [1, 2],
    latches := [],
    outputs := [] }

/-- C1 witness: all five branches of the theorem at concrete gates of
`cnfBranchExample`, starting from the input mapping `{1 ↦ 1, 2 ↦ 2}`. -/
theorem c1_gate_clause_emission_witness :
    cnfGateStep cnfBranchExample ([], [(1, 1), (2, 2)]) 10 =
      some ([[(3 : Int)]], [(1, 1), (2, 2), (10, 3)]) ∧
    cnfGateStep cnfBranchExample ([], [(1, 1), (2, 2)]) 11 =
      some ([[(3 : Int), -1], [-3, 1]], [(1, 1), (2, 2), (11, 3)]) ∧
    cnfGateStep cnfBranchExample ([], [(1, 1), (2, 2)]) 12 =
      some ([[(-3 : Int)]], [(1, 1), (2, 2), (12, 3)]) ∧
    cnfGateStep cnfBranchExample ([], [(1, 1), (2, 2)]) 14 =
      some ([[(-3 : Int)]], [(1, 1), (2, 2), (14, 3)]) ∧
    cnfGateStep cnfBranchExample ([], [(1, 1), (2, 2)]) 13 =
      some ([[(3 : Int), -1, -2], [-3, 1], [-3, 2]],
        [(1, 1), (2, 2), (13, 3)]) :=
  ⟨((c1_gate_clause_emission cnfBranchExample 10 10 Ref.TRUE Ref.TRUE []
      [(1, 1), (2, 2)] (by decide)).1 true true (by decide) (by decide)).trans
      (by decide),
   ((c1_gate_clause_emission cnfBranchExample 11 11 Ref.TRUE (Ref.positive 1) []
      [(1, 1), (2, 2)] (by decide)).2.1 1 (by decide) (by decide)
      (by decide)).trans (by decide),
   ((c1_gate_clause_emission cnfBranchExample 12 12 (Ref.positive 1) Ref.FALSE []
      [(1, 1), (2, 2)] (by decide)).2.2.2.1 1
      (Or.inr ⟨by decide, by decide, by decide⟩)).trans (by decide),
   ((c1_gate_clause_emission cnfBranchExample 14 14 Ref.FALSE (Ref.positive 1) []
      [(1, 1), (2, 2)] (by decide)).2.2.2.1 1
      (Or.inl ⟨by decide, by decide, by decide⟩)).trans (by decide),
   ((c1_gate_clause_emission cnfBranchExample 13 13 (Ref.positive 1)
      (Ref.positive 2) [] [(1, 1), (2, 2)] (by decide)).2.2.2.2 1 2 (by decide)
      (by decide) (by decide) (by decide)).trans (by decide)⟩

/-! ## Claim C2: layering completeness -/

theorem flatten_map_sortLayer_perm :
    ∀ P : List (List Nat), (P.map sortLayer).flatten.Perm P.flatten := by
  intro P
  induction P with
  | nil => simp
  | cons l P ih =>
    simp only [List.map_cons, List.flatten_cons]
    exact List.Perm.append (List.perm_insertionSort _ l) ih

theorem mem_getD_map_sortLayer (P : List (List Nat)) (k : Nat) (x : Nat) :
    x ∈ (P.map sortLayer).getD k [] ↔ x ∈ P.getD k [] := by
  rw [List.getD_eq_getElem?_getD, List.getD_eq_getElem?_getD, List.getElem?_map]
  rcases hk : P[k]? with _ | layer
  · simp
  · simp only [Option.map_some, Option.getD_some]
    exact (List.perm_insertionSort _ layer).mem_iff

/-- Successful `layers_input` comes from a successful peeling of the
canonical node enumeration, with each layer sorted. -/
theorem layers_input_elim {A : Aig} {L : List (List Nat)}
    (h : A.layers_input = some L) :
    ∃ P, peel (vertsOf A.revDepGraph).length A.revDepGraph
        (vertsOf A.revDepGraph) = some P ∧ L = P.map sortLayer := by
  rw [Aig.layers_input, Aig.layersInputFrom, toposort_layersFrom] at h
  rcases hp : peel (vertsOf A.revDepGraph).length A.revDepGraph
      (vertsOf A.revDepGraph) with _ | P
  · rw [hp] at h; cases h
  · rw [hp] at h
    cases h
    exact ⟨P, rfl, rfl⟩

/-- C2 (amended): for every acyclic graph, concatenating the layers of
`layers_input` yields *exactly once each id occurring in the reverse
dependency graph* (each id that is a child of a stored node or has stored
children) — stored nodes that neither reference nor are referenced by any
node, such as inputs no gate references, are omitted (see the
counterexample) — and for every AND gate appearing in some layer, the id
of each of its non-constant arguments appears in a strictly earlier
layer. -/
theorem c2_layering_amended (A : Aig) (L : List (List Nat))
    (h : A.layers_input = some L) :
    L.flatten.Perm (vertsOf A.revDepGraph) ∧
    (∀ (k : Nat) (g gid : Nat) (left right : Ref),
      g ∈ L.getD k [] →
      A.nodes.lookup g = some (Node.and_gate gid left right) →
      (left.id ≠ 0 → ∃ j, j < k ∧ left.id ∈ L.getD j []) ∧
      (right.id ≠ 0 → ∃ j, j < k ∧ right.id ∈ L.getD j [])) := by
  obtain ⟨P, hP, rfl⟩ := layers_input_elim h
  constructor
  · exact (flatten_map_sortLayer_perm P).trans (peel_flatten_perm _ _ _ _ hP)
  · intro k g gid left right hg hlk
    rw [mem_getD_map_sortLayer] at hg
    have hmem := lookup_mem hlk
    have hedge : ∀ c ∈ (Node.and_gate gid left right).childIds,
        c ∈ vertsOf A.revDepGraph ∧ g ∈ succsOf A.revDepGraph c := by
      intro c hc
      exact ⟨revKeys_subset_verts A ((mem_revKeys_iff A c).mpr ⟨(g, _), hmem, hc⟩),
        (mem_succsOf_revDepGraph A c g).mpr ⟨_, hmem, hc⟩⟩
    constructor
    · intro _
      have hl : left.id ∈ (Node.and_gate gid left right).childIds := by
        simp [Node.childIds, Node.children]
      obtain ⟨hv, he⟩ := hedge _ hl
      obtain ⟨j, hj, hpj⟩ := peel_earlier_deps _ _ _ _ hP k g hg _ hv he
      exact ⟨j, hj, (mem_getD_map_sortLayer P j _).mpr hpj⟩
    · intro _
      have hr : right.id ∈ (Node.and_gate gid left right).childIds := by
        simp [Node.childIds, Node.children]
      obtain ⟨hv, he⟩ := hedge _ hr
      obtain ⟨j, hj, hpj⟩ := peel_earlier_deps _ _ _ _ hP k g hg _ hv he
      exact ⟨j, hj, (mem_getD_map_sortLayer P j _).mpr hpj⟩

/-- An input referenced by no gate: it is stored in the graph but absent
from the reverse dependency graph. -/
def unreferencedInputExample : Aig :=
  { nodes := [(1, Node.input 1)],
    inputs := [1],
    latches := [],
    outputs := [] }

/-- C2, counterexample to the claim as stated: for the acyclic graph with
the single (unreferenced) input `1`, `layers_input` yields *no* layers at
all, so the concatenation of all layers is *not* a permutation of the
stored node set — stored node `1` never appears. -/
theorem c2_counterexample :
    unreferencedInputExample.layers_input = some [] ∧
    1 ∈ unreferencedInputExample.nodes.map Prod.fst ∧
    ¬ (([] : List (List Nat)).flatten.Perm
        (unreferencedInputExample.nodes.map Prod.fst)) := by
  refine ⟨by decide, by decide, ?_⟩
  intro hperm
  have h1 : (1 : Nat) ∈ ([] : List (List Nat)).flatten :=
    hperm.symm.mem_iff.mp (by decide)
  exact absurd h1 (by decide)

/-- C2 witness: the amended theorem at the concrete example circuit —
its four layers concatenate to a permutation of the reverse dependency
graph's ids, and gate `5`'s non-constant argument `4` (from layer 2)
appears in a strictly earlier layer. -/
theorem c2_layering_amended_witness :
    (([[1, 2, 3], [4], [5], [6]] : List (List Nat)).flatten.Perm
      (vertsOf evalExample.revDepGraph)) ∧
    (∃ j, j < 2 ∧ 4 ∈ ([[1, 2, 3], [4], [5], [6]] : List (List Nat)).getD j []) := by
  have h := c2_layering_amended evalExample [[1, 2, 3], [4], [5], [6]] (by decide)
  refine ⟨h.1, ?_⟩
  have h2 := (h.2 2 5 5 (Ref.negative 4) (Ref.positive 3) (by decide)
    (by decide)).1 (by decide)
  simpa using h2

/-! ## Lookup after insertion -/

theorem lookup_append_some {β : Type} {m₁ m₂ : List (Nat × β)} {k : Nat}
    {v : β} (h : m₁.lookup k = some v) : (m₁ ++ m₂).lookup k = some v := by
  induction m₁ with
  | nil => cases h
  | cons p rest ih =>
    obtain ⟨a, b⟩ := p
    by_cases hk : k = a
    · subst hk
      simp [List.lookup] at h ⊢
      exact h
    · simp only [List.cons_append, List.lookup,
        beq_eq_false_iff_ne.mpr hk] at h ⊢
      exact ih h

theorem lookup_append_none {β : Type} {m₁ : List (Nat × β)}
    (m₂ : List (Nat × β)) {k : Nat} (h : m₁.lookup k = none) :
    (m₁ ++ m₂).lookup k = m₂.lookup k := by
  induction m₁ with
  | nil => rfl
  | cons p rest ih =>
    obtain ⟨a, b⟩ := p
    by_cases hk : k = a
    · subst hk
      simp [List.lookup] at h
    · simp only [List.cons_append, List.lookup,
        beq_eq_false_iff_ne.mpr hk] at h ⊢
      exact ih h

theorem lookup_none_of_any_key_false {β : Type} {m : List (Nat × β)}
    {k : Nat} (h : m.any (fun p => p.1 == k) = false) : m.lookup k = none := by
  induction m with
  | nil => rfl
  | cons p rest ih =>
    obtain ⟨a, b⟩ := p
    rw [List.any_cons, Bool.or_eq_false_iff] at h
    have hk : ¬k = a := by
      intro hkk
      subst hkk
      simp at h
    simp only [List.lookup, beq_eq_false_iff_ne.mpr hk]
    exact ih h.2

theorem lookup_mapInsert_self {β : Type} (m : List (Nat × β)) (k : Nat)
    (v : β) : (mapInsert m k v).lookup k = some v := by
  rw [mapInsert]
  by_cases hany : m.any (fun p => p.1 == k) = true
  · rw [if_pos hany]
    induction m with
    | nil => cases hany
    | cons p rest ih =>
      obtain ⟨a, b⟩ := p
      by_cases hk : a = k
      · subst hk
        rw [List.map_cons, if_pos (by simp)]
        simp [List.lookup]
      · rw [List.any_cons] at hany
        simp only [beq_eq_false_iff_ne.mpr hk, Bool.false_or] at hany
        rw [List.map_cons, if_neg (by simpa using hk)]
        simp only [List.lookup, beq_eq_false_iff_ne.mpr (Ne.symm hk)]
        exact ih hany
  · rw [if_neg hany]
    rw [lookup_append_none _ (lookup_none_of_any_key_false
      (Bool.eq_false_iff.mpr hany))]
    simp [List.lookup]

theorem lookup_mapInsert_ne {β : Type} (m : List (Nat × β)) (k : Nat)
    (v : β) {q : Nat} (h : q ≠ k) :
    (mapInsert m k v).lookup q = m.lookup q := by
  rw [mapInsert]
  by_cases hany : m.any (fun p => p.1 == k) = true
  · rw [if_pos hany]
    clear hany
    induction m with
    | nil => rfl
    | cons p rest ih =>
      obtain ⟨a, b⟩ := p
      by_cases hk : a = k
      · subst hk
        rw [List.map_cons, if_pos (by simp)]
        simp only [List.lookup, beq_eq_false_iff_ne.mpr h,
          beq_eq_false_iff_ne.mpr h]
        exact ih
      · rw [List.map_cons, if_neg (by simpa using hk)]
        by_cases hq : q = a
        · subst hq
          simp [List.lookup]
        · simp only [List.lookup, beq_eq_false_iff_ne.mpr hq]
          exact ih
  · rw [if_neg hany]
    rcases hlq : m.lookup q with _ | w
    · rw [lookup_append_none _ hlq]
      simp [List.lookup, beq_eq_false_iff_ne.mpr h]
    · exact lookup_append_some hlq

/-! ## Folding a monadic step over layers -/

theorem foldlM_layers_eq_flatten {β : Type} (f : β → Nat → Option β) :
    ∀ (Ls : List (List Nat)) (b : β),
      Ls.foldlM (fun st layer => layer.foldlM f st) b = Ls.flatten.foldlM f b := by
  intro Ls
  induction Ls with
  | nil => intro b; rfl
  | cons l Ls ih =>
    intro b
    rw [List.foldlM_cons, List.flatten_cons, List.foldlM_append]
    rcases hb : l.foldlM f b with _ | b'
    · rfl
    · exact ih b'

/-! ## Claim C8: constant absorption in `eval` -/

theorem evalGate_elim {A : Aig} {values v' : List (Nat × Bool)} {a : Nat}
    (h : evalGate A values a = some v') :
    ∃ gid l r lv rv, A.node a = some (Node.and_gate gid l r) ∧
      get_value l values = some lv ∧ get_value r values = some rv ∧
      v' = mapInsert values a (lv && rv) := by
  rw [evalGate] at h
  split at h
  next gid l r heq =>
    rcases hl : get_value l values with _ | lv
    · rw [hl] at h; cases h
    · rw [hl, Option.some_bind] at h
      rcases hr : get_value r values with _ | rv
      · rw [hr] at h; cases h
      · rw [hr, Option.map_some'] at h
        cases h
        exact ⟨gid, l, r, lv, rv, heq, hl, hr, rfl⟩
  next =>
    cases h

theorem evalFold_lookup_frozen (A : Aig) (g : Nat) :
    ∀ (ids : List Nat) (values values' : List (Nat × Bool)), g ∉ ids →
      List.foldlM (evalGate A) values ids = some values' →
      values'.lookup g = values.lookup g := by
  intro ids
  induction ids with
  | nil =>
    intro values values' _ h
    cases h
    rfl
  | cons a rest ih =>
    intro values values' hg h
    rw [List.foldlM_cons] at h
    rcases h1 : evalGate A values a with _ | v₁
    · rw [h1] at h; cases h
    · rw [h1] at h
      obtain ⟨gid, l, r, lv, rv, -, -, -, rfl⟩ := evalGate_elim h1
      have hga : g ≠ a := fun hq => hg (hq ▸ List.mem_cons_self _ _)
      rw [ih _ values' (fun hm => hg (List.mem_cons_of_mem _ hm)) h]
      exact lookup_mapInsert_ne _ _ _ hga

theorem evalFold_lookup_false (A : Aig) (g gid : Nat) (left right : Ref)
    (hnode : A.node g = some (Node.and_gate gid left right))
    (habs : left.is_false = true ∨ right.is_false = true) :
    ∀ (ids : List Nat) (values values' : List (Nat × Bool)),
      ids.Nodup → g ∈ ids →
      List.foldlM (evalGate A) values ids = some values' →
      values'.lookup g = some false := by
  intro ids
  induction ids with
  | nil =>
    intro values values' _ hg _
    cases hg
  | cons a rest ih =>
    intro values values' hnd hg h
    rw [List.foldlM_cons] at h
    rcases h1 : evalGate A values a with _ | v₁
    · rw [h1] at h; cases h
    · rw [h1] at h
      rw [List.nodup_cons] at hnd
      by_cases hga : g = a
      · subst hga
        obtain ⟨gid', l, r, lv, rv, hn', hl, hr, rfl⟩ := evalGate_elim h1
        rw [hnode] at hn'
        cases hn'
        have hval : (lv && rv) = false := by
          rcases habs with habs | habs
          · have : get_value left values = some false := by
              rw [get_value, if_pos habs]
            rw [this] at hl
            cases hl
            rfl
          · have : get_value right values = some false := by
              rw [get_value, if_pos habs]
            rw [this] at hr
            cases hr
            simp
        rw [evalFold_lookup_frozen A g rest _ values' hnd.1 h, hval]
        exact lookup_mapInsert_self _ _ _
      · exact ih v₁ values' hnd.2
          (by rcases List.mem_cons.mp hg with hq | hq;
              exact absurd hq hga; exact hq) h

/-- Under well-formedness, the flattened non-initial layers of
`layers_input` are exactly the stored AND-gate ids (each once): gates are
precisely the nodes with combinational children, so they are never free,
while everything else falls into layer 0 (or is absent). -/
theorem tail_flatten_perm_gateIds (A : Aig) (hWF : WF A)
    {L : List (List Nat)} (h : A.layers_input = some L) :
    (L.drop 1).flatten.Perm A.gateIds := by
  obtain ⟨P, hP, rfl⟩ := layers_input_elim h
  rcases hverts : vertsOf A.revDepGraph with _ | ⟨v, vr⟩
  · rw [hverts] at hP
    rw [peel_nil] at hP
    cases hP
    have hgates : A.gateIds = [] := by
      rcases hg : A.gateIds with _ | ⟨g, gs⟩
      · rfl
      · exfalso
        have hmem : g ∈ A.gateIds := by rw [hg]; exact List.mem_cons_self _ _
        obtain ⟨n, hlk, hgate⟩ := (mem_gateIds_iff A hWF g).mp hmem
        have := gate_mem_verts A hWF hlk hgate
        rw [hverts] at this
        cases this
    rw [hgates]
    exact List.Perm.refl _
  · rw [hverts, List.length_cons] at hP
    obtain ⟨P', rfl, hrec, -⟩ := peel_cons_elim hP
    have hdrop : ((((v :: vr).filter (isFree A.revDepGraph (v :: vr))) :: P').map
        sortLayer).drop 1 = P'.map sortLayer := rfl
    rw [hdrop]
    refine ((flatten_map_sortLayer_perm P').trans
      (peel_flatten_perm _ _ _ _ hrec)).trans ?_
    have hnd1 : ((v :: vr).filter
        (fun y => !isFree A.revDepGraph (v :: vr) y)).Nodup := by
      have : (vertsOf A.revDepGraph).Nodup := List.nodup_dedup _
      rw [hverts] at this
      exact this.filter _
    refine (List.perm_ext_iff_of_nodup hnd1 (gateIds_nodup A hWF)).mpr ?_
    intro x
    rw [List.mem_filter, mem_gateIds_iff A hWF]
    constructor
    · rintro ⟨hx, hfree⟩
      have : isFree A.revDepGraph (vertsOf A.revDepGraph) x = false := by
        rw [hverts]
        simpa using hfree
      exact (not_isFree_verts_iff A hWF x).mp this
    · rintro ⟨n, hlk, hgate⟩
      have hx : x ∈ vertsOf A.revDepGraph := gate_mem_verts A hWF hlk hgate
      have hfree : isFree A.revDepGraph (vertsOf A.revDepGraph) x = false :=
        (not_isFree_verts_iff A hWF x).mpr ⟨n, hlk, hgate⟩
      rw [hverts] at hx hfree
      exact ⟨hx, by simp [hfree]⟩

/-- C8: in every latch-free acyclic graph, an AND gate one of whose
arguments is the constant-false reference evaluates to `false` under
`eval`, for every input assignment (of the correct length, as implied by a
successful evaluation) — independently of the other argument. -/
theorem c8_constant_absorption (A : Aig) (hWF : WF A) (g gid : Nat)
    (left right : Ref)
    (hnode : A.node g = some (Node.and_gate gid left right))
    (habs : left.is_false = true ∨ right.is_false = true)
    (input_values : List Bool) (m : List (Nat × Bool))
    (heval : A.eval input_values = some m) :
    m.lookup g = some false := by
  rw [Aig.eval] at heval
  by_cases hlen : input_values.length = A.inputs.length
  · rw [if_pos hlen] at heval
    split at heval
    next hL => cases heval
    next L hL =>
      rw [foldlM_layers_eq_flatten] at heval
      have hg0 : g ≠ 0 := by
        intro hq
        rw [Aig.node, if_pos hq] at hnode
        cases hnode
      have hlk : A.nodes.lookup g = some (Node.and_gate gid left right) := by
        rw [Aig.node, if_neg hg0] at hnode
        exact hnode
      have hperm := tail_flatten_perm_gateIds A hWF hL
      have hmem : g ∈ (L.drop 1).flatten :=
        hperm.symm.subset ((mem_gateIds_iff A hWF g).mpr ⟨_, hlk, rfl⟩)
      have hnd : (L.drop 1).flatten.Nodup := hperm.nodup_iff.mpr (gateIds_nodup A hWF)
      exact evalFold_lookup_false A g gid left right hnode habs _ _ m hnd hmem heval
  · rw [if_neg hlen] at heval
    cases heval

/-- The evaluation example extended with gate `7 = g3 AND false`
(the `test_eval` circuit of `src/aig.rs`). -/
def constAbsExample : Aig :=
  { nodes := [(1, Node.input 1), (2, Node.input 2), (3, Node.input 3),
              (4, Node.and_gate 4 (Ref.positive 1) (Ref.positive 2)),
              (5, Node.and_gate 5 (Ref.negative 4) (Ref.positive 3)),
              (6, Node.and_gate 6 (Ref.positive 1) (Ref.negative 5)),
              (7, Node.and_gate 7 (Ref.positive 6) Ref.FALSE)],
    inputs := [1, 2, 3],
    latches := [],
    outputs := [Ref.positive 6] }

/-- C8 witness: gate `7 = g3 AND false` of the concrete test circuit
evaluates to `false`. -/
theorem c8_constant_absorption_witness :
    (constAbsExample.eval [true, false, true]).bind (fun m => m.lookup 7) =
      some false := by
  have heval : constAbsExample.eval [true, false, true] =
      some [(1, true), (2, false), (3, true), (4, false), (5, true),
        (6, false), (7, false)] := by decide
  have h := c8_constant_absorption constAbsExample (by decide) 7 7
    (Ref.positive 6) Ref.FALSE (by decide) (Or.inr (by decide))
    [true, false, true] _ heval
  rw [heval]
  exact h

/-! ## Claim C3: the variable map of `to_cnf` -/

theorem any_key_eq_false_iff {β : Type} (m : List (Nat × β)) (k : Nat) :
    m.any (fun q => q.1 == k) = false ↔ k ∉ m.map Prod.fst := by
  rw [← Bool.not_eq_true, List.any_eq_true]
  constructor
  · intro h hk
    obtain ⟨⟨a, b⟩, hmem, rfl⟩ := List.mem_map.mp hk
    exact h ⟨(a, b), hmem, by simp⟩
  · rintro h ⟨⟨a, b⟩, hmem, hbeq⟩
    exact h (List.mem_map.mpr ⟨(a, b), hmem, by simpa using hbeq⟩)

theorem zip_range'_lookup :
    ∀ (l : List Nat) (s : Nat), l.Nodup →
      ∀ (i : Nat) (h : i < l.length),
        (l.zip (List.range' s l.length)).lookup l[i] = some (s + i) := by
  intro l
  induction l with
  | nil => intro s _ i h; cases h
  | cons a rest ih =>
    intro s hnd i h
    rw [List.length_cons, List.range'_succ, List.zip_cons_cons]
    rw [List.nodup_cons] at hnd
    match i with
    | 0 =>
      simp [List.lookup]
    | i + 1 =>
      have hne : (a :: rest)[i + 1] ≠ a := by
        simp only [List.getElem_cons_succ]
        intro hq
        exact hnd.1 (hq ▸ List.getElem_mem _)
      simp only [List.lookup, beq_eq_false_iff_ne.mpr hne]
      have := ih (s + 1) hnd.2 i (by simpa using h)
      simp only [List.getElem_cons_succ]
      rw [this]
      congr 1
      omega

/-- Folding the input-numbering insertions over fresh, duplicate-free keys
appends the pairs `(id, index + 1)` in order. -/
theorem enumFrom_fold_mapInsert :
    ∀ (l : List Nat) (s : Nat) (m : List (Nat × Nat)), l.Nodup →
      (∀ k ∈ l, m.any (fun q => q.1 == k) = false) →
      (l.enumFrom s).foldl (fun acc p => mapInsert acc p.2 (p.1 + 1)) m =
        m ++ l.zip (List.range' (s + 1) l.length) := by
  intro l
  induction l with
  | nil => intro s m _ _; simp
  | cons a rest ih =>
    intro s m hnd hfresh
    rw [List.nodup_cons] at hnd
    rw [List.enumFrom_cons, List.foldl_cons]
    have hstep : mapInsert m a (s + 1) = m ++ [(a, s + 1)] := by
      rw [mapInsert, if_neg]
      rw [hfresh a (List.mem_cons_self _ _)]
      simp
    rw [hstep, ih (s + 1) (m ++ [(a, s + 1)]) hnd.2 ?fresh]
    case fresh =>
      intro k hk
      rw [List.any_append, Bool.or_eq_false_iff]
      refine ⟨hfresh k (List.mem_cons_of_mem _ hk), ?_⟩
      have : k ≠ a := fun hq => hnd.1 (hq ▸ hk)
      simp [beq_eq_false_iff_ne.mpr (Ne.symm this)]
    rw [List.append_assoc]
    congr 1

theorem cnfGateStep_elim {A : Aig} {st st' : List (List Int) × List (Nat × Nat)}
    {id : Nat} (h : cnfGateStep A st id = some st') :
    ∃ gid l r C, A.node id = some (Node.and_gate gid l r) ∧
      encodeGate ((st.2.length + 1 : Nat) : Int) l r
        (mapInsert st.2 id (st.2.length + 1)) = some C ∧
      st' = (st.1 ++ C, mapInsert st.2 id (st.2.length + 1)) := by
  rw [cnfGateStep] at h
  split at h
  next gid l r heq =>
    rcases hC : encodeGate ((st.2.length + 1 : Nat) : Int) l r
        (mapInsert st.2 id (st.2.length + 1)) with _ | C
    · rw [hC] at h; cases h
    · rw [hC, Option.map_some'] at h
      cases h
      exact ⟨gid, l, r, C, heq, hC, rfl⟩
  next =>
    cases h

/-- Folding the CNF gate step over fresh, duplicate-free gate ids appends
`(id, next_variable)` pairs in order: the final mapping is the original
one followed by the gates zipped with the next dense variable range. -/
theorem cnfFold_shape (A : Aig) :
    ∀ (gs : List Nat) (cls : List (List Int)) (m : List (Nat × Nat))
      (st' : List (List Int) × List (Nat × Nat)), gs.Nodup →
      (∀ g ∈ gs, m.any (fun q => q.1 == g) = false) →
      List.foldlM (cnfGateStep A) (cls, m) gs = some st' →
      st'.2 = m ++ gs.zip (List.range' (m.length + 1) gs.length) := by
  intro gs
  induction gs with
  | nil =>
    intro cls m st' _ _ h
    cases h
    simp
  | cons g rest ih =>
    intro cls m st' hnd hfresh h
    rw [List.nodup_cons] at hnd
    rw [List.foldlM_cons] at h
    rcases h1 : cnfGateStep A (cls, m) g with _ | st₁
    · rw [h1] at h; cases h
    · rw [h1] at h
      obtain ⟨gid, l, r, C, -, -, rfl⟩ := cnfGateStep_elim h1
      have hins : mapInsert m g (m.length + 1) = m ++ [(g, m.length + 1)] := by
        rw [mapInsert, if_neg]
        rw [hfresh g (List.mem_cons_self _ _)]
        simp
      rw [hins] at h
      have hfresh' : ∀ k ∈ rest,
          (m ++ [(g, m.length + 1)]).any (fun q => q.1 == k) = false := by
        intro k hk
        rw [List.any_append, Bool.or_eq_false_iff]
        refine ⟨hfresh k (List.mem_cons_of_mem _ hk), ?_⟩
        have : k ≠ g := fun hq => hnd.1 (hq ▸ hk)
        simp [beq_eq_false_iff_ne.mpr (Ne.symm this)]
      have := ih (cls ++ C) (m ++ [(g, m.length + 1)]) st' hnd.2 hfresh' h
      rw [this, List.append_assoc]
      congr 1
      have hlen : (m ++ [(g, m.length + 1)]).length + 1 = m.length + 1 + 1 := by
        simp
      rw [hlen, List.length_cons, List.range'_succ, List.zip_cons_cons]
      rfl

/-- C3: for a latch-free acyclic graph, the variable map returned by
`to_cnf` is a bijection from the input ids and gate ids onto the dense
range `1..(inputs + gates)`, and the `i`-th input (1-based) is mapped to
variable `i`: the map's keys are a duplicate-free permutation of
`inputs ++ gates` and its values are exactly `range' 1 (inputs + gates)`
in insertion order. -/
theorem c3_variable_map_bijection (A : Aig) (hWF : WF A)
    (cl : List (List Int)) (m : List (Nat × Nat))
    (h : A.to_cnf = some (cl, m)) :
    (∀ (i : Nat) (hi : i < A.inputs.length),
      m.lookup A.inputs[i] = some (i + 1)) ∧
    (m.map Prod.fst).Nodup ∧
    (m.map Prod.fst).Perm (A.inputs ++ A.gateIds) ∧
    m.map Prod.snd = List.range' 1 (A.inputs.length + A.gateIds.length) := by
  rw [Aig.to_cnf] at h
  by_cases hlatch : A.latchList.isEmpty
  · rw [if_pos hlatch] at h
    split at h
    next hL => cases h
    next L hL =>
      rw [foldlM_layers_eq_flatten] at h
      have hperm : (L.drop 1).flatten.Perm A.gateIds :=
        tail_flatten_perm_gateIds A hWF hL
      have hgnd : (L.drop 1).flatten.Nodup :=
        hperm.nodup_iff.mpr (gateIds_nodup A hWF)
      have hm0 : A.inputs.enum.foldl (fun acc p => mapInsert acc p.2 (p.1 + 1)) [] =
          A.inputs.zip (List.range' 1 A.inputs.length) := by
        rw [List.enum_eq_enumFrom,
          enumFrom_fold_mapInsert A.inputs 0 [] hWF.2.1 (fun k _ => rfl)]
        simp
      rw [hm0] at h
      have hm0fst : (A.inputs.zip (List.range' 1 A.inputs.length)).map Prod.fst =
          A.inputs :=
        List.map_fst_zip _ _ (by simp)
      have hdisj : ∀ g ∈ (L.drop 1).flatten, g ∉ A.inputs := by
        intro g hg hgin
        obtain ⟨n, hlk, hgate⟩ := (mem_gateIds_iff A hWF g).mp (hperm.subset hg)
        have := hWF.2.2.1 g hgin
        rw [this] at hlk
        cases hlk
        cases hgate
      have hfresh : ∀ g ∈ (L.drop 1).flatten,
          (A.inputs.zip (List.range' 1 A.inputs.length)).any
            (fun q => q.1 == g) = false := by
        intro g hg
        rw [any_key_eq_false_iff, hm0fst]
        exact hdisj g hg
      have hshape := cnfFold_shape A _ _ _ _ hgnd hfresh h
      have hlen0 : (A.inputs.zip (List.range' 1 A.inputs.length)).length =
          A.inputs.length := by
        rw [List.length_zip, List.length_range']
        exact Nat.min_self _
      simp only at hshape
      have hmfst : m.map Prod.fst = A.inputs ++ (L.drop 1).flatten := by
        rw [hshape, List.map_append, hm0fst, List.map_fst_zip]
        rw [List.length_range']
      have hmsnd : m.map Prod.snd =
          List.range' 1 (A.inputs.length + A.gateIds.length) := by
        rw [hshape, List.map_append,
          List.map_snd_zip _ _ (by simp),
          List.map_snd_zip _ _ (by rw [List.length_range']),
          hlen0, ← hperm.length_eq]
        rw [Nat.add_comm (A.inputs.length) 1,
          Nat.add_comm A.inputs.length (L.drop 1).flatten.length]
        exact List.range'_append_1 1 A.inputs.length (L.drop 1).flatten.length
      refine ⟨?_, ?_, ?_, hmsnd⟩
      · intro i hi
        rw [hshape]
        exact lookup_append_some (by
          have := zip_range'_lookup A.inputs 1 hWF.2.1 i hi
          rw [this]
          congr 1
          omega)
      · rw [hmfst]
        rw [List.nodup_append]
        exact ⟨hWF.2.1, hgnd, fun a ha hb => hdisj a hb ha⟩
      · rw [hmfst]
        exact List.Perm.append_left _ hperm
  · rw [if_neg hlatch] at h
    cases h

/-- C3 witness: the variable map of the example circuit maps input `2`
(the 2nd input) to variable `2`, its keys are a permutation of
`inputs ++ gates`, and its values are exactly `1..6`. -/
theorem c3_variable_map_bijection_witness :
    (([(1, 1), (2, 2), (3, 3), (4, 4), (5, 5), (6, 6)] :
        List (Nat × Nat)).lookup 2 = some 2) ∧
    (([(1, 1), (2, 2), (3, 3), (4, 4), (5, 5), (6, 6)] :
        List (Nat × Nat)).map Prod.fst).Perm
      (evalExample.inputs ++ evalExample.gateIds) ∧
    ([(1, 1), (2, 2), (3, 3), (4, 4), (5, 5), (6, 6)] :
        List (Nat × Nat)).map Prod.snd = List.range' 1 6 := by
  have h : evalExample.to_cnf = some
      ([[(4 : Int), -1, -2], [-4, 1], [-4, 2],
        [(5 : Int), 4, -3], [-5, -4], [-5, 3],
        [(6 : Int), -1, 5], [-6, 1], [-6, -5]],
       [(1, 1), (2, 2), (3, 3), (4, 4), (5, 5), (6, 6)]) := by decide
  have hc := c3_variable_map_bijection evalExample (by decide) _ _ h
  exact ⟨by simpa using hc.1 1 (by decide), hc.2.2.1, hc.2.2.2⟩

/-! ## Claim C9: determinism of `to_cnf`

The only nondeterminism in the pipeline is the hash-map iteration order
seeding the layered toposort (`toposort_layersFrom`'s `ord` argument);
everything downstream of the sorted layers is a pure function.  We show
that any two enumerations of the graph's nodes produce identical sorted
layers, hence identical clause lists and variable maps. -/

/-- `Aig::to_cnf` seeded by an explicit node enumeration (hash order). -/
def Aig.to_cnfFrom (A : Aig) (ord : List Nat) :
    Option (List (List Int) × List (Nat × Nat)) :=
  if A.latchList.isEmpty then
    match A.layersInputFrom ord with
    | none => none
    | some layers =>
      (layers.drop 1).foldlM (fun st layer => layer.foldlM (cnfGateStep A) st)
        ([], A.inputs.enum.foldl (fun m p => mapInsert m p.2 (p.1 + 1)) [])
  else none

theorem all_of_perm {f : Nat → Bool} {a₁ a₂ : List Nat} (h : a₁.Perm a₂) :
    a₁.all f = a₂.all f := by
  cases hb : a₂.all f with
  | true =>
    rw [List.all_eq_true] at hb ⊢
    exact fun x hx => hb x (h.subset hx)
  | false =>
    rw [List.all_eq_false] at hb ⊢
    obtain ⟨x, hx, hfx⟩ := hb
    exact ⟨x, h.mem_iff.mpr hx, hfx⟩

theorem isFree_congr_perm (G : List (Nat × List Nat)) {a₁ a₂ : List Nat}
    (h : a₁.Perm a₂) (x : Nat) : isFree G a₁ x = isFree G a₂ x :=
  all_of_perm h

theorem sortLayer_eq_of_perm {l₁ l₂ : List Nat} (h : l₁.Perm l₂) :
    sortLayer l₁ = sortLayer l₂ := by
  refine List.eq_of_perm_of_sorted
    ((List.perm_insertionSort _ l₁).trans
      (h.trans (List.perm_insertionSort _ l₂).symm))
    (List.sorted_insertionSort _ l₁) (List.sorted_insertionSort _ l₂)

/-- The sorted layers of the peeling depend on the starting enumeration
only up to permutation — equal node sets give equal sorted layers. -/
theorem peel_sorted_congr (G : List (Nat × List Nat)) :
    ∀ (n : Nat) (a₁ a₂ : List Nat), a₁.Perm a₂ →
      (peel n G a₁).map (List.map sortLayer) =
        (peel n G a₂).map (List.map sortLayer) := by
  intro n
  induction n with
  | zero =>
    intro a₁ a₂ h
    cases a₁ with
    | nil =>
      have h2 : a₂ = [] := h.symm.eq_nil
      subst h2
      rfl
    | cons x r₁ =>
      cases a₂ with
      | nil => exact absurd h.eq_nil (by simp)
      | cons y r₂ => rfl
  | succ n ih =>
    intro a₁ a₂ h
    cases a₁ with
    | nil =>
      have h2 : a₂ = [] := h.symm.eq_nil
      subst h2
      rfl
    | cons x r₁ =>
      cases a₂ with
      | nil => exact absurd h.eq_nil (by simp)
      | cons y r₂ =>
        have hpt : ∀ z, isFree G (y :: r₂) z = isFree G (x :: r₁) z :=
          fun z => (isFree_congr_perm G h z).symm
        have hf2 : (y :: r₂).filter (isFree G (y :: r₂)) =
            (y :: r₂).filter (isFree G (x :: r₁)) :=
          List.filter_congr (fun z _ => hpt z)
        have hr2 : (y :: r₂).filter (fun z => !isFree G (y :: r₂) z) =
            (y :: r₂).filter (fun z => !isFree G (x :: r₁) z) :=
          List.filter_congr (fun z _ => by rw [hpt z])
        have hfilter : ((x :: r₁).filter (isFree G (x :: r₁))).Perm
            ((y :: r₂).filter (isFree G (y :: r₂))) := by
          rw [hf2]
          exact h.filter _
        have hrem : ((x :: r₁).filter (fun z => !isFree G (x :: r₁) z)).Perm
            ((y :: r₂).filter (fun z => !isFree G (y :: r₂) z)) := by
          rw [hr2]
          exact h.filter _
        rw [peel, peel]
        by_cases hf : ((x :: r₁).filter (isFree G (x :: r₁))).isEmpty = true
        · have hf2e : ((y :: r₂).filter (isFree G (y :: r₂))).isEmpty = true := by
            rw [List.isEmpty_iff] at hf ⊢
            rw [hf] at hfilter
            exact hfilter.symm.eq_nil
          rw [if_pos hf, if_pos hf2e]
        · have hf2e : ¬((y :: r₂).filter (isFree G (y :: r₂))).isEmpty = true := by
            intro hq
            apply hf
            rw [List.isEmpty_iff] at hq ⊢
            rw [hq] at hfilter
            exact hfilter.eq_nil
          have hcomp : ∀ (o : Option (List (List Nat))) (f : List Nat),
              (o.map (f :: ·)).map (List.map sortLayer) =
                (o.map (List.map sortLayer)).map (sortLayer f :: ·) := by
            intro o f
            cases o <;> rfl
          rw [if_neg hf, if_neg hf2e, hcomp, hcomp, ih _ _ hrem,
            sortLayer_eq_of_perm hfilter]

theorem layersInputFrom_congr (A : Aig) {ord₁ ord₂ : List Nat}
    (h : ord₁.Perm ord₂) :
    A.layersInputFrom ord₁ = A.layersInputFrom ord₂ := by
  rw [Aig.layersInputFrom, Aig.layersInputFrom, toposort_layersFrom,
    toposort_layersFrom, h.length_eq]
  exact peel_sorted_congr A.revDepGraph ord₂.length _ _ h

/-- C9: `to_cnf` is deterministic — the clause list and the id-to-variable
map do not depend on the hash-map iteration order that seeds the layered
toposort (each layer is sorted by id before processing), and `to_cnf`
itself is the canonical instance of the seeded computation. -/
theorem c9_to_cnf_deterministic (A : Aig) (ord₁ ord₂ : List Nat)
    (h₁ : ord₁.Perm (vertsOf A.revDepGraph))
    (h₂ : ord₂.Perm (vertsOf A.revDepGraph)) :
    A.to_cnfFrom ord₁ = A.to_cnfFrom ord₂ ∧
      A.to_cnf = A.to_cnfFrom (vertsOf A.revDepGraph) := by
  constructor
  · have hlayers := layersInputFrom_congr A (h₁.trans h₂.symm)
    rw [Aig.to_cnfFrom, Aig.to_cnfFrom, hlayers]
  · rfl

/-- C9 witness: seeding the example circuit's encoding with the reversed
node enumeration yields exactly `to_cnf`'s result. -/
theorem c9_to_cnf_deterministic_witness :
    evalExample.to_cnfFrom (vertsOf evalExample.revDepGraph).reverse =
      evalExample.to_cnf := by
  have h := c9_to_cnf_deterministic evalExample
    (vertsOf evalExample.revDepGraph).reverse
    (vertsOf evalExample.revDepGraph)
    (List.reverse_perm _) (List.Perm.refl _)
  exact h.1.trans h.2.symm

/-! ## Claim C6: cycle rejection by the topological sorts
(`src/toposort.rs`)

`ForwardTopoSort` and `BackwardTopoSort` are iterator state machines; a
`next()` call yields a layer, terminates, or panics ("Circular dependency
detected" / the `assert!`).  We model one `next()` call as a step function
and drive it to exhaustion with fuel; the result is `Except`, whose
`error` payload is the list of layers emitted *before* the panic (fuel
exhaustion is also an `error`, so `ok` is produced only by a genuinely
terminating run). -/

/-- `ForwardTopoSort { graph, in_degree, queue, .. }`. -/
structure FwdState where
  graph : List (Nat × List Nat)
  indeg : List (Nat × Nat)
  queue : List Nat
deriving DecidableEq

/-- The `in_degree` map: each node occurring in an edge list, with its
number of occurrences. -/
def buildInDegree (G : List (Nat × List Nat)) : List (Nat × Nat) :=
  (G.flatMap Prod.snd).dedup.map (fun x => (x, (G.flatMap Prod.snd).count x))

/-- `ForwardTopoSort::new`: count in-degrees, seed the queue with keys
having no incoming edge (`!in_degree.contains_key(node)`). -/
def fwdInit (G : List (Nat × List Nat)) : FwdState :=
  { graph := G,
    indeg := buildInDegree G,
    queue := (G.map Prod.fst).filter
      (fun k => ((buildInDegree G).lookup k).isNone) }

/-- Decrement the in-degree entry of `e` in place. -/
def decrIndeg (indeg : List (Nat × Nat)) (e : Nat) : List (Nat × Nat) :=
  indeg.map (fun p => if p.1 == e then (p.1, p.2 - 1) else p)

/-- `*count -= 1; if *count == 0 { queue.push_back(edge) }` — the `unwrap`
on the in-degree entry never fails because every processed edge occurs in
some original edge list. -/
def relaxEdge (acc : List (Nat × Nat) × List Nat) (e : Nat) :
    List (Nat × Nat) × List Nat :=
  if ((decrIndeg acc.1 e).lookup e).getD 0 = 0 then
    (decrIndeg acc.1 e, acc.2 ++ [e])
  else (decrIndeg acc.1 e, acc.2)

/-- `if let Some(edges) = self.graph.remove(&node) { .. }` for one popped
node. -/
def fwdProcessNode (st : FwdState) (n : Nat) : FwdState :=
  match st.graph.lookup n with
  | none => st
  | some edges =>
    { graph := st.graph.filter (fun p => !(p.1 == n)),
      indeg := (edges.foldl relaxEdge (st.indeg, st.queue)).1,
      queue := (edges.foldl relaxEdge (st.indeg, st.queue)).2 }

/-- `for _ in 0..self.queue.len()` — pop and process each node of the
current layer. -/
def fwdDrain : Nat → FwdState → List Nat → FwdState × List Nat
  | 0, st, acc => (st, acc)
  | k + 1, st, acc =>
    match st.queue with
    | [] => (st, acc)
    | n :: rest => fwdDrain k (fwdProcessNode { st with queue := rest } n)
        (acc ++ [n])

inductive FwdStep where
  | layer (l : List Nat) (st : FwdState) : FwdStep
  | done : FwdStep
  | cyclePanic : FwdStep
deriving DecidableEq

/-- One `ForwardTopoSort::next()` call: an empty queue terminates the
iterator unless a positive in-degree remains, which is the
`panic!("Circular dependency detected")`. -/
def fwdNext (st : FwdState) : FwdStep :=
  if st.queue.isEmpty then
    (if st.indeg.any (fun p => 0 < p.2) then FwdStep.cyclePanic
     else FwdStep.done)
  else
    FwdStep.layer (fwdDrain st.queue.length st []).2
      (fwdDrain st.queue.length st []).1

def fwdRun : Nat → FwdState → List (List Nat) →
    Except (List (List Nat)) (List (List Nat))
  | 0, _, acc => Except.error acc
  | fuel + 1, st, acc =>
    match fwdNext st with
    | FwdStep.done => Except.ok acc
    | FwdStep.cyclePanic => Except.error acc
    | FwdStep.layer l st' => fwdRun fuel st' (acc ++ [l])

/-- `toposort_forward` driven to exhaustion. -/
def toposort_forward (G : List (Nat × List Nat)) :
    Except (List (List Nat)) (List (List Nat)) :=
  fwdRun ((G.map Prod.fst).length + (G.flatMap Prod.snd).length + 1)
    (fwdInit G) []

/-- `BackwardTopoSort::new`: each key with its dependency set
(`HashSet`, modelled by `dedup`), then `or_default` entries for items
occurring only as a dependency. -/
def bwdInit (G : List (Nat × List Nat)) : List (Nat × List Nat) :=
  (G.flatMap Prod.snd).foldl
    (fun d v => if d.any (fun p => p.1 == v) then d else d ++ [(v, [])])
    (G.map (fun p => (p.1, p.2.dedup)))

/-- The new layer: items whose dependency set is empty. -/
def bwdLayer (data : List (Nat × List Nat)) : List Nat :=
  (data.filter (fun p => p.2.isEmpty)).map Prod.fst

/-- Remove the layer's keys, then remove the layer's items from every
remaining dependency set. -/
def bwdReduce (data : List (Nat × List Nat)) (layer : List Nat) :
    List (Nat × List Nat) :=
  (data.filter (fun p => !layer.contains p.1)).map
    (fun p => (p.1, p.2.filter (fun d => !layer.contains d)))

inductive BwdStep where
  | layer (l : List Nat) (data : List (Nat × List Nat)) : BwdStep
  | done : BwdStep
  | cyclePanic : BwdStep
deriving DecidableEq

/-- One `BackwardTopoSort::next()` call: an empty layer means either
normal exhaustion (`data` empty) or the
`assert!(self.data.is_empty(), "Circular dependency detected")` panic. -/
def bwdNext (data : List (Nat × List Nat)) : BwdStep :=
  if (bwdLayer data).isEmpty then
    (if data.isEmpty then BwdStep.done else BwdStep.cyclePanic)
  else
    BwdStep.layer (bwdLayer data) (bwdReduce data (bwdLayer data))

def bwdRun : Nat → List (Nat × List Nat) → List (List Nat) →
    Except (List (List Nat)) (List (List Nat))
  | 0, _, acc => Except.error acc
  | fuel + 1, data, acc =>
    match bwdNext data with
    | BwdStep.done => Except.ok acc
    | BwdStep.cyclePanic => Except.error acc
    | BwdStep.layer l data' => bwdRun fuel data' (acc ++ [l])

/-- `toposort_backward` driven to exhaustion. -/
def toposort_backward (G : List (Nat × List Nat)) :
    Except (List (List Nat)) (List (List Nat)) :=
  bwdRun ((bwdInit G).length + 1) (bwdInit G) []

/-- Sanity: the acyclic example of `test_forward_toposort`
(`g1 = 4 → [x1 = 1, x2 = 2]`, `g2 = 5 → [g1, x3 = 3]`,
`g3 = 6 → [x1, g2]`) produces the expected layers. -/
theorem toposort_forward_example :
    toposort_forward [(4, [1, 2]), (5, [4, 3]), (6, [1, 5])] =
      Except.ok [[6], [5], [4, 3], [1, 2]] := by rfl

/-- Sanity: the same graph through `BackwardTopoSort` peels the
dependency-free items first. -/
theorem toposort_backward_example :
    toposort_backward [(4, [1, 2]), (5, [4, 3]), (6, [1, 5])] =
      Except.ok [[1, 2, 3], [4], [5], [6]] := by rfl

/-! ### Dependency cycles -/

/-- The edge relation of a dependency graph (`b` is listed among `a`'s
edges). -/
def edgeB (G : List (Nat × List Nat)) (a b : Nat) : Bool :=
  decide (b ∈ succsOf G a)

/-- A (non-empty) cycle: consecutive edges through the list and back to
its head, e.g. `[a, b]` for `a -> b -> a`. -/
def IsCycleList (G : List (Nat × List Nat)) : List Nat → Prop
  | [] => False
  | x :: xs => List.Chain (fun a b => edgeB G a b = true) x (xs ++ [x])

/-- Executable chain check mirroring `List.Chain` over `edgeB`. -/
def chainB (G : List (Nat × List Nat)) : Nat → List Nat → Bool
  | _, [] => true
  | a, b :: rest => edgeB G a b && chainB G b rest

theorem chainB_iff (G : List (Nat × List Nat)) :
    ∀ (rest : List Nat) (a : Nat), chainB G a rest = true ↔
      List.Chain (fun u v => edgeB G u v = true) a rest := by
  intro rest
  induction rest with
  | nil =>
    intro a
    simp [chainB]
  | cons b rest ih =>
    intro a
    rw [chainB, List.chain_cons, Bool.and_eq_true, ih b]

instance (G : List (Nat × List Nat)) :
    (l : List Nat) → Decidable (IsCycleList G l)
  | [] => isFalse id
  | x :: xs => decidable_of_iff (chainB G x (xs ++ [x]) = true)
      (chainB_iff G (xs ++ [x]) x)

theorem chain_succ_mem {α : Type} {r : α → α → Prop} :
    ∀ (xs : List α) (x z : α), List.Chain r x (xs ++ [z]) →
      ∀ y ∈ x :: xs, ∃ w ∈ xs ++ [z], r y w := by
  intro xs
  induction xs with
  | nil =>
    intro x z hch y hy
    obtain ⟨hxz, -⟩ := List.chain_cons.mp hch
    have hyx : y = x := by simpa using hy
    exact ⟨z, by simp, hyx ▸ hxz⟩
  | cons a xs ih =>
    intro x z hch y hy
    rw [List.cons_append] at hch
    obtain ⟨hxa, hch'⟩ := List.chain_cons.mp hch
    rcases List.mem_cons.mp hy with rfl | hy'
    · exact ⟨a, by simp, hxa⟩
    · obtain ⟨w, hw, hr⟩ := ih a z hch' y hy'
      exact ⟨w, by rw [List.cons_append]; exact List.mem_cons_of_mem _ hw, hr⟩

theorem chain_pred_mem {α : Type} {r : α → α → Prop} :
    ∀ (xs : List α) (x z : α), List.Chain r x (xs ++ [z]) →
      ∀ y ∈ xs ++ [z], ∃ w ∈ x :: xs, r w y := by
  intro xs
  induction xs with
  | nil =>
    intro x z hch y hy
    obtain ⟨hxz, -⟩ := List.chain_cons.mp hch
    have hyz : y = z := by simpa using hy
    exact ⟨x, by simp, hyz ▸ hxz⟩
  | cons a xs ih =>
    intro x z hch y hy
    rw [List.cons_append] at hch
    obtain ⟨hxa, hch'⟩ := List.chain_cons.mp hch
    rw [List.cons_append] at hy
    rcases List.mem_cons.mp hy with rfl | hy'
    · exact ⟨x, by simp, hxa⟩
    · obtain ⟨w, hw, hr⟩ := ih a z hch' y hy'
      exact ⟨w, List.mem_cons_of_mem _ hw, hr⟩

theorem cycle_succ {G : List (Nat × List Nat)} {l : List Nat}
    (h : IsCycleList G l) : ∀ y ∈ l, ∃ w ∈ l, edgeB G y w = true := by
  cases l with
  | nil => cases h
  | cons x xs =>
    intro y hy
    obtain ⟨w, hw, hr⟩ := chain_succ_mem xs x x h y hy
    rcases List.mem_append.mp hw with hw' | hw'
    · exact ⟨w, List.mem_cons_of_mem _ hw', hr⟩
    · have : w = x := by simpa using hw'
      exact ⟨w, this ▸ List.mem_cons_self _ _, hr⟩

theorem cycle_pred {G : List (Nat × List Nat)} {l : List Nat}
    (h : IsCycleList G l) : ∀ y ∈ l, ∃ w ∈ l, edgeB G w y = true := by
  cases l with
  | nil => cases h
  | cons x xs =>
    intro y hy
    have hy' : y ∈ xs ++ [x] := by
      rcases List.mem_cons.mp hy with rfl | hy'
      · simp
      · exact List.mem_append.mpr (Or.inl hy')
    obtain ⟨w, hw, hr⟩ := chain_pred_mem xs x x h y hy'
    exact ⟨w, hw, hr⟩

theorem lookup_some_of_edgeB {G : List (Nat × List Nat)} {a b : Nat}
    (h : edgeB G a b = true) : ∃ ds, G.lookup a = some ds ∧ b ∈ ds := by
  rw [edgeB, decide_eq_true_eq, succsOf] at h
  rcases hlk : G.lookup a with _ | ds
  · rw [hlk] at h
    cases h
  · rw [hlk] at h
    exact ⟨ds, rfl, h⟩

theorem mem_keys_of_lookup {β : Type} {g : List (Nat × β)} {k : Nat} {v : β}
    (h : g.lookup k = some v) : k ∈ g.map Prod.fst :=
  List.mem_map.mpr ⟨(k, v), lookup_mem h, rfl⟩

/-! ### More association-list helpers -/

theorem contains_true_iff (l : List Nat) (a : Nat) :
    l.contains a = true ↔ a ∈ l := by
  simp [List.contains_eq_any_beq, List.any_eq_true, eq_comm]

theorem contains_false_iff (l : List Nat) (a : Nat) :
    l.contains a = false ↔ a ∉ l := by
  rw [← Bool.not_eq_true, not_iff_not]
  exact contains_true_iff l a

theorem lookup_filter_key_ne {β : Type} (g : List (Nat × β)) (n : Nat)
    {k : Nat} (h : k ≠ n) :
    (g.filter (fun p => !(p.1 == n))).lookup k = g.lookup k := by
  induction g with
  | nil => rfl
  | cons p rest ih =>
    obtain ⟨a, b⟩ := p
    by_cases han : a = n
    · subst han
      rw [List.filter_cons_of_neg (by simp)]
      rw [ih]
      simp only [List.lookup, beq_eq_false_iff_ne.mpr h]
    · rw [List.filter_cons_of_pos (by simpa using han)]
      by_cases hka : k = a
      · subst hka
        simp [List.lookup]
      · simp only [List.lookup, beq_eq_false_iff_ne.mpr hka]
        exact ih

theorem filter_key_eq_self {β : Type} {g : List (Nat × β)} {n : Nat}
    (h : n ∉ g.map Prod.fst) : g.filter (fun p => !(p.1 == n)) = g := by
  induction g with
  | nil => rfl
  | cons p rest ih =>
    obtain ⟨a, b⟩ := p
    rw [List.map_cons] at h
    have han : a ≠ n := fun hq => h (hq ▸ List.mem_cons_self _ _)
    rw [List.filter_cons_of_pos (by simpa using han),
      ih (fun hm => h (List.mem_cons_of_mem _ hm))]

/-- Lookup through a key-preserving map. -/
theorem lookup_map_keyfix {β γ : Type} (f : Nat → β → γ) :
    ∀ (g : List (Nat × β)) (k : Nat),
      (g.map (fun p => (p.1, f p.1 p.2))).lookup k = (g.lookup k).map (f k) := by
  intro g
  induction g with
  | nil => intro k; rfl
  | cons p rest ih =>
    intro k
    obtain ⟨a, b⟩ := p
    by_cases hka : k = a
    · subst hka
      simp [List.lookup]
    · rw [List.map_cons]
      simp only [List.lookup, beq_eq_false_iff_ne.mpr hka]
      exact ih k

/-- The number of occurrences of `x` among all edge lists. -/
def countVal (g : List (Nat × List Nat)) (x : Nat) : Nat :=
  (g.flatMap Prod.snd).count x

theorem countVal_remove (g : List (Nat × List Nat))
    (hnd : (g.map Prod.fst).Nodup) {n : Nat} {es : List Nat}
    (hlk : g.lookup n = some es) (x : Nat) :
    countVal g x = es.count x +
      countVal (g.filter (fun p => !(p.1 == n))) x := by
  induction g with
  | nil => cases hlk
  | cons p rest ih =>
    obtain ⟨a, b⟩ := p
    rw [List.map_cons, List.nodup_cons] at hnd
    by_cases han : a = n
    · subst han
      simp only [List.lookup, beq_self_eq_true] at hlk
      cases hlk
      rw [List.filter_cons_of_neg (by simp), filter_key_eq_self hnd.1]
      rw [countVal, countVal, List.flatMap_cons, List.count_append]
    · simp only [List.lookup, beq_eq_false_iff_ne.mpr (Ne.symm han)] at hlk
      rw [List.filter_cons_of_pos (by simpa using han)]
      have ih' := ih hnd.2 hlk
      rw [countVal, countVal] at ih'
      rw [countVal, countVal, List.flatMap_cons, List.flatMap_cons,
        List.count_append, List.count_append]
      omega

theorem countVal_pos_of_mem {g : List (Nat × List Nat)} {n : Nat}
    {es : List Nat} (hmem : (n, es) ∈ g) {x : Nat} (hx : x ∈ es) :
    1 ≤ countVal g x := by
  rw [countVal]
  have : x ∈ g.flatMap Prod.snd := List.mem_flatMap.mpr ⟨(n, es), hmem, hx⟩
  have := List.count_pos_iff.mpr this
  omega

/-! ### The forward iterator never completes on a cyclic graph -/

theorem decrIndeg_lookup (indeg : List (Nat × Nat)) (e x : Nat) :
    ((decrIndeg indeg e).lookup x).getD 0 =
      if x = e then (indeg.lookup x).getD 0 - 1
      else (indeg.lookup x).getD 0 := by
  have hshape : decrIndeg indeg e =
      indeg.map (fun p => (p.1, if p.1 == e then p.2 - 1 else p.2)) := by
    rw [decrIndeg]
    refine List.map_congr_left (fun p _ => ?_)
    by_cases hp : p.1 = e
    · simp [hp]
    · simp [beq_eq_false_iff_ne.mpr hp]
  rw [hshape, lookup_map_keyfix (fun k v => if k == e then v - 1 else v)]
  rcases hlk : indeg.lookup x with _ | c
  · by_cases hxe : x = e <;> simp
  · by_cases hxe : x = e
    · subst hxe
      simp
    · simp [beq_eq_false_iff_ne.mpr hxe, hxe]

theorem relaxFold_indeg :
    ∀ (es : List Nat) (indeg : List (Nat × Nat)) (q : List Nat) (x : Nat),
      (((es.foldl relaxEdge (indeg, q)).1).lookup x).getD 0 =
        ((indeg.lookup x).getD 0) - es.count x := by
  intro es
  induction es with
  | nil =>
    intro indeg q x
    simp
  | cons e es ih =>
    intro indeg q x
    rw [List.foldl_cons]
    obtain ⟨q', hq'⟩ : ∃ q', relaxEdge (indeg, q) e = (decrIndeg indeg e, q') := by
      rw [relaxEdge]
      by_cases hc : ((decrIndeg indeg e).lookup e).getD 0 = 0
      · exact ⟨q ++ [e], by rw [if_pos hc]⟩
      · exact ⟨q, by rw [if_neg hc]⟩
    rw [hq', ih (decrIndeg indeg e) q' x, decrIndeg_lookup]
    by_cases hxe : x = e
    · subst hxe
      rw [if_pos rfl, List.count_cons_self]
      omega
    · rw [if_neg hxe, List.count_cons_of_ne hxe]

theorem relaxFold_queue_not_mem :
    ∀ (es : List Nat) (indeg : List (Nat × Nat)) (q : List Nat) (y : Nat),
      y ∉ q → es.count y < (indeg.lookup y).getD 0 →
      y ∉ (es.foldl relaxEdge (indeg, q)).2 := by
  intro es
  induction es with
  | nil =>
    intro indeg q y hq _
    simpa using hq
  | cons e es ih =>
    intro indeg q y hq hcnt
    rw [List.foldl_cons, relaxEdge]
    dsimp only
    by_cases hc : ((decrIndeg indeg e).lookup e).getD 0 = 0
    · rw [if_pos hc]
      by_cases hye : y = e
      · subst hye
        exfalso
        rw [decrIndeg_lookup, if_pos rfl] at hc
        rw [List.count_cons_self] at hcnt
        omega
      · apply ih
        · intro hmem
          rcases List.mem_append.mp hmem with hm | hm
          · exact hq hm
          · exact hye (by simpa using hm)
        · rw [decrIndeg_lookup, if_neg hye]
          rw [List.count_cons_of_ne hye] at hcnt
          exact hcnt
    · rw [if_neg hc]
      by_cases hye : y = e
      · subst hye
        apply ih _ _ _ hq
        rw [decrIndeg_lookup, if_pos rfl]
        rw [List.count_cons_self] at hcnt
        omega
      · apply ih _ _ _ hq
        rw [decrIndeg_lookup, if_neg hye]
        rw [List.count_cons_of_ne hye] at hcnt
        exact hcnt

/-- The run invariant for a self-sustaining node set `S` (every member has
a predecessor in `S`, as the nodes of a cycle do): no member is ever
queued, the members' adjacency entries survive untouched, and the
in-degree map mirrors the multiset of remaining edges. -/
def FwdInv (G : List (Nat × List Nat)) (S : List Nat) (st : FwdState) :
    Prop :=
  (∀ y ∈ S, y ∉ st.queue) ∧
  (∀ p ∈ S, st.graph.lookup p = G.lookup p) ∧
  (∀ x : Nat, ((st.indeg.lookup x).getD 0) = countVal st.graph x) ∧
  (st.graph.map Prod.fst).Nodup

theorem fwdInv_count_pos {G : List (Nat × List Nat)} {S : List Nat}
    {st : FwdState} (hpred : ∀ y ∈ S, ∃ p ∈ S, edgeB G p y = true)
    (hInv : FwdInv G S st) : ∀ y ∈ S, 1 ≤ countVal st.graph y := by
  intro y hy
  obtain ⟨p, hp, he⟩ := hpred y hy
  obtain ⟨ds, hlk, hyds⟩ := lookup_some_of_edgeB he
  have hlk' : st.graph.lookup p = some ds := (hInv.2.1 p hp).trans hlk
  exact countVal_pos_of_mem (lookup_mem hlk') hyds

theorem fwdProcessNode_inv {G : List (Nat × List Nat)} {S : List Nat}
    (hpred : ∀ y ∈ S, ∃ p ∈ S, edgeB G p y = true) {st : FwdState}
    (hInv : FwdInv G S st) {n : Nat} (hn : n ∉ S) :
    FwdInv G S (fwdProcessNode st n) := by
  rw [fwdProcessNode]
  split
  next => exact hInv
  next edges hlkn =>
    have hcount : ∀ x, countVal st.graph x =
        edges.count x + countVal (st.graph.filter (fun p => !(p.1 == n))) x :=
      fun x => countVal_remove st.graph hInv.2.2.2 hlkn x
    refine ⟨?_, ?_, ?_, ?_⟩
    · intro y hy
      apply relaxFold_queue_not_mem edges st.indeg st.queue y (hInv.1 y hy)
      rw [hInv.2.2.1 y, hcount y]
      have h1 : 1 ≤ countVal (st.graph.filter (fun p => !(p.1 == n))) y := by
        obtain ⟨p, hp, he⟩ := hpred y hy
        obtain ⟨ds, hlk, hyds⟩ := lookup_some_of_edgeB he
        have hpn : p ≠ n := fun hq' => hn (hq' ▸ hp)
        have hgl : (st.graph.filter (fun p => !(p.1 == n))).lookup p =
            some ds := by
          rw [lookup_filter_key_ne _ _ hpn, hInv.2.1 p hp, hlk]
        exact countVal_pos_of_mem (lookup_mem hgl) hyds
      omega
    · intro p hp
      have hpn : p ≠ n := fun hq' => hn (hq' ▸ hp)
      rw [lookup_filter_key_ne _ _ hpn]
      exact hInv.2.1 p hp
    · intro x
      dsimp only
      rw [relaxFold_indeg, hInv.2.2.1 x, hcount x]
      omega
    · exact ((List.filter_sublist _).map Prod.fst).nodup hInv.2.2.2

theorem fwdDrain_inv {G : List (Nat × List Nat)} {S : List Nat}
    (hpred : ∀ y ∈ S, ∃ p ∈ S, edgeB G p y = true) :
    ∀ (k : Nat) (st : FwdState) (acc : List Nat), FwdInv G S st →
      FwdInv G S (fwdDrain k st acc).1 := by
  intro k
  induction k with
  | zero =>
    intro st acc h
    exact h
  | succ k ih =>
    intro st acc hInv
    rw [fwdDrain]
    split
    next => exact hInv
    next n rest hqeq =>
      apply ih
      apply fwdProcessNode_inv hpred
      · refine ⟨?_, hInv.2.1, hInv.2.2.1, hInv.2.2.2⟩
        intro y hy
        have hyq := hInv.1 y hy
        rw [hqeq] at hyq
        exact fun hmem => hyq (List.mem_cons_of_mem _ hmem)
      · intro hnS
        have := hInv.1 n hnS
        rw [hqeq] at this
        exact this (List.mem_cons_self _ _)

theorem fwdRun_no_ok {G : List (Nat × List Nat)} {S : List Nat}
    (hS : S ≠ []) (hpred : ∀ y ∈ S, ∃ p ∈ S, edgeB G p y = true) :
    ∀ (fuel : Nat) (st : FwdState) (acc : List (List Nat)),
      FwdInv G S st → ∀ L, fwdRun fuel st acc ≠ Except.ok L := by
  intro fuel
  induction fuel with
  | zero =>
    intro st acc _ L h
    rw [fwdRun] at h
    exact Except.noConfusion h
  | succ fuel ih =>
    intro st acc hInv L h
    rw [fwdRun] at h
    split at h
    next heq =>
      rw [fwdNext] at heq
      by_cases hqe : st.queue.isEmpty = true
      · rw [if_pos hqe] at heq
        by_cases hany : st.indeg.any (fun p => 0 < p.2) = true
        · rw [if_pos hany] at heq
          cases heq
        · obtain ⟨y, hy⟩ : ∃ y, y ∈ S := by
            cases S with
            | nil => exact absurd rfl hS
            | cons a t => exact ⟨a, List.mem_cons_self _ _⟩
          have hc : 1 ≤ countVal st.graph y := fwdInv_count_pos hpred hInv y hy
          have hlkc := hInv.2.2.1 y
          rcases hlky : st.indeg.lookup y with _ | c
          · rw [hlky] at hlkc
            rw [Option.getD_none] at hlkc
            omega
          · rw [hlky] at hlkc
            rw [Option.getD_some] at hlkc
            refine absurd (List.any_eq_true.mpr ⟨(y, c), lookup_mem hlky, ?_⟩) hany
            simp only [decide_eq_true_eq]
            omega
      · rw [if_neg hqe] at heq
        cases heq
    next heq =>
      exact Except.noConfusion h
    next l st' heq =>
      rw [fwdNext] at heq
      by_cases hqe : st.queue.isEmpty = true
      · rw [if_pos hqe] at heq
        by_cases hany : st.indeg.any (fun p => 0 < p.2) = true
        · rw [if_pos hany] at heq
          cases heq
        · rw [if_neg hany] at heq
          cases heq
      · rw [if_neg hqe] at heq
        injection heq with h1 h2
        exact ih st' (acc ++ [l]) (h2 ▸ fwdDrain_inv hpred _ st [] hInv) L h

theorem fwdInit_inv {G : List (Nat × List Nat)} {S : List Nat}
    (hkeys : (G.map Prod.fst).Nodup)
    (hpred : ∀ y ∈ S, ∃ p ∈ S, edgeB G p y = true) :
    FwdInv G S (fwdInit G) := by
  have hmemval : ∀ y ∈ S, y ∈ G.flatMap Prod.snd := by
    intro y hy
    obtain ⟨p, hp, he⟩ := hpred y hy
    obtain ⟨ds, hlk, hyds⟩ := lookup_some_of_edgeB he
    exact List.mem_flatMap.mpr ⟨(p, ds), lookup_mem hlk, hyds⟩
  refine ⟨?_, fun p _ => rfl, ?_, hkeys⟩
  · intro y hy hmem
    rw [fwdInit] at hmem
    have := (List.mem_filter.mp hmem).2
    rw [buildInDegree,
      lookup_map_self _ _ _ (List.mem_dedup.mpr (hmemval y hy))] at this
    cases this
  · intro x
    rw [fwdInit, buildInDegree]
    by_cases hx : x ∈ (G.flatMap Prod.snd).dedup
    · rw [lookup_map_self _ _ _ hx, Option.getD_some]
      rfl
    · rw [lookup_map_self_not_mem _ _ _ hx, Option.getD_none, countVal]
      rw [List.mem_dedup] at hx
      exact (List.count_eq_zero.mpr hx).symm

/-! ### The backward iterator never completes on a cyclic graph -/

theorem orDefault_fold_append :
    ∀ (vs : List Nat) (d : List (Nat × List Nat)),
      ∃ extra, vs.foldl (fun d v => if d.any (fun p => p.1 == v) then d
        else d ++ [(v, [])]) d = d ++ extra := by
  intro vs
  induction vs with
  | nil =>
    intro d
    exact ⟨[], by simp⟩
  | cons v vs ih =>
    intro d
    rw [List.foldl_cons]
    by_cases hv : d.any (fun p => p.1 == v) = true
    · rw [if_pos hv]
      exact ih d
    · rw [if_neg hv]
      obtain ⟨e, he⟩ := ih (d ++ [(v, [])])
      exact ⟨[(v, [])] ++ e, by rw [he, List.append_assoc]⟩

theorem orDefault_fold_nodup :
    ∀ (vs : List Nat) (d : List (Nat × List Nat)),
      (d.map Prod.fst).Nodup →
      ((vs.foldl (fun d v => if d.any (fun p => p.1 == v) then d
        else d ++ [(v, [])]) d).map Prod.fst).Nodup := by
  intro vs
  induction vs with
  | nil =>
    intro d h
    exact h
  | cons v vs ih =>
    intro d h
    rw [List.foldl_cons]
    by_cases hv : d.any (fun p => p.1 == v) = true
    · rw [if_pos hv]
      exact ih d h
    · rw [if_neg hv]
      refine ih _ ?_
      rw [List.map_append]
      refine List.Nodup.append h (by simp) ?_
      intro a ha hb
      have hav : a = v := by simpa using hb
      subst hav
      exact absurd ((any_key_eq_false_iff d a).mp
        (Bool.eq_false_iff.mpr hv)) (fun hq => hq ha)

theorem orDefault_fold_id :
    ∀ (vs : List Nat) (d : List (Nat × List Nat)),
      (∀ v ∈ vs, v ∈ d.map Prod.fst) →
      vs.foldl (fun d v => if d.any (fun p => p.1 == v) then d
        else d ++ [(v, [])]) d = d := by
  intro vs
  induction vs with
  | nil =>
    intro d _
    rfl
  | cons v vs ih =>
    intro d h
    rw [List.foldl_cons, if_pos, ih d (fun w hw => h w (List.mem_cons_of_mem _ hw))]
    by_contra hq
    rw [Bool.not_eq_true] at hq
    exact (any_key_eq_false_iff d v).mp hq (h v (List.mem_cons_self _ _))

/-- Lookup through the dedup of every dependency set. -/
theorem lookup_map_dedup :
    ∀ (g : List (Nat × List Nat)) (k : Nat),
      (g.map (fun p => (p.1, p.2.dedup))).lookup k =
        (g.lookup k).map (fun v => v.dedup) := by
  intro g
  induction g with
  | nil => intro k; rfl
  | cons p rest ih =>
    intro k
    obtain ⟨a, b⟩ := p
    by_cases hka : k = a
    · subst hka
      simp [List.lookup]
    · rw [List.map_cons]
      simp only [List.lookup, beq_eq_false_iff_ne.mpr hka]
      exact ih k

/-- The run invariant for a self-sustaining node set `S` (every member has
a dependency in `S`): members keep an entry whose dependency set still
contains a member of `S`, so they are never emitted. -/
def BwdInv (S : List Nat) (data : List (Nat × List Nat)) : Prop :=
  (data.map Prod.fst).Nodup ∧
  ∀ x ∈ S, ∃ deps, data.lookup x = some deps ∧ ∃ p ∈ S, p ∈ deps

theorem bwdInit_inv {G : List (Nat × List Nat)} {S : List Nat}
    (hkeys : (G.map Prod.fst).Nodup)
    (hsucc : ∀ y ∈ S, ∃ p ∈ S, edgeB G y p = true) :
    BwdInv S (bwdInit G) := by
  have hbase : (G.map (fun p => (p.1, p.2.dedup))).map Prod.fst =
      G.map Prod.fst := by
    rw [List.map_map]
    rfl
  constructor
  · rw [bwdInit]
    apply orDefault_fold_nodup
    rw [hbase]
    exact hkeys
  · intro x hx
    obtain ⟨p, hp, he⟩ := hsucc x hx
    obtain ⟨ds, hlk, hpds⟩ := lookup_some_of_edgeB he
    obtain ⟨extra, hextra⟩ := orDefault_fold_append (G.flatMap Prod.snd)
      (G.map (fun p => (p.1, p.2.dedup)))
    have hlkbase : (G.map (fun p => (p.1, p.2.dedup))).lookup x =
        some ds.dedup := by
      rw [lookup_map_dedup, hlk]
      rfl
    refine ⟨ds.dedup, ?_, p, hp, List.mem_dedup.mpr hpds⟩
    rw [bwdInit, hextra]
    exact lookup_append_some hlkbase

theorem bwd_S_not_in_layer {S : List Nat} {data : List (Nat × List Nat)}
    (hInv : BwdInv S data) : ∀ x ∈ S, x ∉ bwdLayer data := by
  intro x hx hmem
  obtain ⟨deps, hlk, p, hp, hpdeps⟩ := hInv.2 x hx
  rw [bwdLayer] at hmem
  obtain ⟨⟨x', d₂⟩, hmem2, rfl⟩ := List.mem_map.mp hmem
  have hd2 := List.mem_filter.mp hmem2
  have hlk2 : data.lookup x' = some d₂ :=
    lookup_eq_some_of_mem_nodup hInv.1 hd2.1
  rw [hlk] at hlk2
  cases hlk2
  have hde : deps = [] := by simpa [List.isEmpty_iff] using hd2.2
  rw [hde] at hpdeps
  cases hpdeps

theorem bwdNext_layer_inv {S : List Nat} {data : List (Nat × List Nat)}
    {l : List Nat} {data' : List (Nat × List Nat)} (hInv : BwdInv S data)
    (h : bwdNext data = BwdStep.layer l data') : BwdInv S data' := by
  rw [bwdNext] at h
  by_cases he : (bwdLayer data).isEmpty = true
  · rw [if_pos he] at h
    by_cases hd : data.isEmpty = true
    · rw [if_pos hd] at h
      cases h
    · rw [if_neg hd] at h
      cases h
  · rw [if_neg he] at h
    injection h with h1 h2
    subst h1
    subst h2
    have hnd' : ((bwdReduce data (bwdLayer data)).map Prod.fst).Nodup := by
      rw [bwdReduce]
      have hfst : ((data.filter (fun p => !(bwdLayer data).contains p.1)).map
          (fun p => (p.1, p.2.filter (fun d => !(bwdLayer data).contains d)))).map
            Prod.fst =
          (data.filter (fun p => !(bwdLayer data).contains p.1)).map Prod.fst := by
        rw [List.map_map]
        rfl
      rw [hfst]
      exact ((List.filter_sublist _).map Prod.fst).nodup hInv.1
    refine ⟨hnd', ?_⟩
    intro x hx
    obtain ⟨deps, hlk, p, hp, hpdeps⟩ := hInv.2 x hx
    have hxl : x ∉ bwdLayer data := bwd_S_not_in_layer hInv x hx
    have hpl : p ∉ bwdLayer data := bwd_S_not_in_layer hInv p hp
    have hmem' : (x, deps.filter (fun d => !(bwdLayer data).contains d)) ∈
        bwdReduce data (bwdLayer data) := by
      rw [bwdReduce]
      refine List.mem_map.mpr ⟨(x, deps),
        List.mem_filter.mpr ⟨lookup_mem hlk, ?_⟩, rfl⟩
      rw [(contains_false_iff _ _).mpr hxl]
      rfl
    refine ⟨deps.filter (fun d => !(bwdLayer data).contains d),
      lookup_eq_some_of_mem_nodup hnd' hmem', p, hp, ?_⟩
    refine List.mem_filter.mpr ⟨hpdeps, ?_⟩
    rw [(contains_false_iff _ _).mpr hpl]
    rfl

theorem bwdRun_no_ok {S : List Nat} (hS : S ≠ []) :
    ∀ (fuel : Nat) (data : List (Nat × List Nat)) (acc : List (List Nat)),
      BwdInv S data → ∀ L, bwdRun fuel data acc ≠ Except.ok L := by
  intro fuel
  induction fuel with
  | zero =>
    intro data acc _ L h
    rw [bwdRun] at h
    exact Except.noConfusion h
  | succ fuel ih =>
    intro data acc hInv L h
    rw [bwdRun] at h
    split at h
    next heq =>
      rw [bwdNext] at heq
      by_cases he : (bwdLayer data).isEmpty = true
      · rw [if_pos he] at heq
        by_cases hd : data.isEmpty = true
        · obtain ⟨y, hy⟩ : ∃ y, y ∈ S := by
            cases S with
            | nil => exact absurd rfl hS
            | cons a t => exact ⟨a, List.mem_cons_self _ _⟩
          obtain ⟨deps, hlk, -⟩ := hInv.2 y hy
          have hmem := lookup_mem hlk
          rw [List.isEmpty_iff] at hd
          rw [hd] at hmem
          cases hmem
        · rw [if_neg hd] at heq
          cases heq
      · rw [if_neg he] at heq
        cases heq
    next heq =>
      exact Except.noConfusion h
    next l data' heq =>
      exact ih data' (acc ++ [l]) (bwdNext_layer_inv hInv heq) L h

/-! ### Pure cycles fail before any layer is produced -/

theorem fwd_pure_cycle {G : List (Nat × List Nat)} {l : List Nat}
    (hkeys : (G.map Prod.fst).Nodup) (hcyc : IsCycleList G l)
    (hk : ∀ k ∈ G.map Prod.fst, k ∈ l) :
    toposort_forward G = Except.error [] := by
  have hpred := cycle_pred hcyc
  have hq : (fwdInit G).queue = [] := by
    rw [fwdInit]
    rw [List.filter_eq_nil_iff]
    intro k hkmem
    have hkl : k ∈ l := hk k hkmem
    obtain ⟨p, hp, he⟩ := hpred k hkl
    obtain ⟨ds, hlk, hkds⟩ := lookup_some_of_edgeB he
    have hkdd : k ∈ (G.flatMap Prod.snd).dedup :=
      List.mem_dedup.mpr (List.mem_flatMap.mpr ⟨(p, ds), lookup_mem hlk, hkds⟩)
    rw [buildInDegree, lookup_map_self _ _ _ hkdd]
    simp
  have hnext : fwdNext (fwdInit G) = FwdStep.cyclePanic := by
    rw [fwdNext, if_pos (by rw [hq]; rfl), if_pos]
    obtain ⟨y, hy⟩ : ∃ y, y ∈ l := by
      cases l with
      | nil => cases hcyc
      | cons a t => exact ⟨a, List.mem_cons_self _ _⟩
    have hInv := fwdInit_inv hkeys hpred
    have hc := fwdInv_count_pos hpred hInv y hy
    have hlkc := hInv.2.2.1 y
    rcases hlky : (fwdInit G).indeg.lookup y with _ | c
    · rw [hlky, Option.getD_none] at hlkc
      omega
    · rw [hlky, Option.getD_some] at hlkc
      refine List.any_eq_true.mpr ⟨(y, c), lookup_mem hlky, ?_⟩
      simp only [decide_eq_true_eq]
      omega
  rw [toposort_forward, fwdRun, hnext]

theorem bwd_pure_cycle {G : List (Nat × List Nat)} {l : List Nat}
    (hkeys : (G.map Prod.fst).Nodup) (hcyc : IsCycleList G l)
    (hk : ∀ k ∈ G.map Prod.fst, k ∈ l)
    (hv : ∀ v ∈ G.flatMap Prod.snd, v ∈ l) :
    toposort_backward G = Except.error [] := by
  have hsucc := cycle_succ hcyc
  have hbase : (G.map (fun p => (p.1, p.2.dedup))).map Prod.fst =
      G.map Prod.fst := by
    rw [List.map_map]
    rfl
  have hlkeys : ∀ y ∈ l, y ∈ G.map Prod.fst := by
    intro y hy
    obtain ⟨p, hp, he⟩ := hsucc y hy
    obtain ⟨ds, hlk, -⟩ := lookup_some_of_edgeB he
    exact mem_keys_of_lookup hlk
  have hid : bwdInit G = G.map (fun p => (p.1, p.2.dedup)) := by
    rw [bwdInit]
    apply orDefault_fold_id
    intro v hvv
    rw [hbase]
    exact hlkeys v (hv v hvv)
  have hlayer : bwdLayer (bwdInit G) = [] := by
    rw [bwdLayer, hid]
    have hfil : (G.map (fun p => (p.1, p.2.dedup))).filter
        (fun p => p.2.isEmpty) = [] := by
      rw [List.filter_eq_nil_iff]
      rintro ⟨k, ds'⟩ hmem
      obtain ⟨⟨k₀, ds₀⟩, hmem0, heq⟩ := List.mem_map.mp hmem
      cases heq
      have hkeyk : k₀ ∈ G.map Prod.fst :=
        List.mem_map.mpr ⟨(k₀, ds₀), hmem0, rfl⟩
      obtain ⟨p, hp, he⟩ := hsucc k₀ (hk _ hkeyk)
      obtain ⟨ds, hlk, hpds⟩ := lookup_some_of_edgeB he
      have hds : ds = ds₀ := by
        have hlk0 := lookup_eq_some_of_mem_nodup hkeys hmem0
        rw [hlk] at hlk0
        injection hlk0
      subst hds
      simp only [List.isEmpty_iff]
      exact List.ne_nil_of_mem (List.mem_dedup.mpr hpds)
    rw [hfil]
    rfl
  have hdata_ne : ¬(bwdInit G).isEmpty = true := by
    obtain ⟨y, hy⟩ : ∃ y, y ∈ l := by
      cases l with
      | nil => cases hcyc
      | cons a t => exact ⟨a, List.mem_cons_self _ _⟩
    have hyk := hlkeys y hy
    rw [hid, List.isEmpty_iff]
    intro hq
    rw [← hbase, hq] at hyk
    cases hyk
  have hnext : bwdNext (bwdInit G) = BwdStep.cyclePanic := by
    rw [bwdNext, if_pos (by rw [hlayer]; rfl), if_neg hdata_ne]
  rw [toposort_backward, bwdRun, hnext]

/-- C6: a dependency graph containing a cycle (given as an explicit cyclic
chain, e.g. `a -> b -> a`) makes both the forward and the backward
topological sort fail fatally instead of returning the layer sequence —
no complete run is possible — and for a graph that *is* a pure cycle (all
keys and all edge targets lie on the cycle) the very first `next()` call
panics, so not a single layer is emitted before the failure. -/
theorem c6_cycle_rejection (G : List (Nat × List Nat))
    (hkeys : (G.map Prod.fst).Nodup) (l : List Nat)
    (hcyc : IsCycleList G l) :
    (∀ L, toposort_forward G ≠ Except.ok L) ∧
    (∀ L, toposort_backward G ≠ Except.ok L) ∧
    ((∀ k ∈ G.map Prod.fst, k ∈ l) → (∀ v ∈ G.flatMap Prod.snd, v ∈ l) →
      toposort_forward G = Except.error [] ∧
      toposort_backward G = Except.error []) := by
  have hlne : l ≠ [] := by
    cases l with
    | nil => cases hcyc
    | cons a t => simp
  refine ⟨?_, ?_,
    fun hk hv => ⟨fwd_pure_cycle hkeys hcyc hk, bwd_pure_cycle hkeys hcyc hk hv⟩⟩
  · intro L
    exact fwdRun_no_ok hlne (cycle_pred hcyc) _ _ _
      (fwdInit_inv hkeys (cycle_pred hcyc)) L
  · intro L
    exact bwdRun_no_ok hlne _ _ _ (bwdInit_inv hkeys (cycle_succ hcyc)) L

/-- C6 witness: the two-node cycle `1 -> 2 -> 1` — both sorts fail at
once, emitting no layer. -/
theorem c6_cycle_rejection_witness :
    toposort_forward [(1, [2]), (2, [1])] = Except.error [] ∧
    toposort_backward [(1, [2]), (2, [1])] = Except.error [] := by
  have h := c6_cycle_rejection [(1, [2]), (2, [1])] (by decide) [1, 2]
    (by decide)
  exact h.2.2 (by decide) (by decide)

end AigerRs
